import Mathlib

/-!
Verification of the `rsgex` NFA regex engine (src/rsgex/{nfa,engine,matcher}.rs).

The data model and all operations below are shallow embeddings of the Rust
source.  `Vec<State>` becomes `List State`, `VecDeque<(Rc<dyn Matcher>, usize)>`
becomes `List (MatcherK × Nat)` (push_back = append, push_front = cons),
`HashMap<usize, CaptureGroupRange>` becomes an insertion-ordered association
list, and the panicking `.unwrap()` calls are modelled with `Option` /
explicit `panic` result constructors.  `usize` arithmetic is `Nat`
(subtractions that cannot underflow in the source are noted where they occur).
-/

/-- The closed set of matcher variants used by the engine
(nfa.rs `CharacterMatcher`/`EpsilonMatcher`, matcher.rs `ClassUnicodeMatcher`). -/
inductive MatcherK where
  | char (c : Char)
  | epsilon
  | classUnicode (lo hi : Char)
deriving DecidableEq, Repr

/-- `Matcher::matches` of nfa.rs / matcher.rs: the epsilon matcher matches any
character; the class matcher is an inclusive range over Unicode scalar values. -/
def MatcherK.matches : MatcherK → Char → Bool
  | .char c, x => c == x
  | .epsilon, _ => true
  | .classUnicode lo hi, x => lo ≤ x && x ≤ hi

/-- `Matcher::is_epsilon`. -/
def MatcherK.isEpsilon : MatcherK → Bool
  | .epsilon => true
  | _ => false

/-- nfa.rs `State`: transition list (`matchers`), flags and capture markers. -/
structure State where
  matchers : List (MatcherK × Nat)
  is_initial : Bool
  is_ending : Bool
  start_group : List (Nat × Option String)
  end_group : List (Nat × Option String)
deriving DecidableEq, Repr, Inhabited

/-- nfa.rs `create_state()`. -/
def create_state : State :=
  { matchers := [], is_initial := false, is_ending := false,
    start_group := [], end_group := [] }

/-- nfa.rs `NFAutomata`. -/
structure NFAutomata where
  states : List State
  initial : Nat
  ending : List Nat
deriving DecidableEq, Repr, Inhabited

namespace NFAutomata

/-- nfa.rs `NFAutomata::new()`. -/
def new : NFAutomata := { states := [], initial := 0, ending := [] }

/-- Apply `f` to the element at index `i`, a no-op when `i` is out of range:
this is the Lean counterpart of the `if let Some(state) = states.get_mut(i)`
pattern used by every primitive mutation in nfa.rs. -/
def modifyIdx (l : List State) (i : Nat) (f : State → State) : List State :=
  match l, i with
  | [], _ => []
  | s :: rest, 0 => f s :: rest
  | s :: rest, Nat.succ j => s :: modifyIdx rest j f

/-- nfa.rs `set_initial`: records the index and sets the flag, only when the
state exists. -/
def set_initial (nfa : NFAutomata) (i : Nat) : NFAutomata :=
  if i < nfa.states.length then
    { nfa with initial := i,
               states := modifyIdx nfa.states i (fun s => { s with is_initial := true }) }
  else nfa

/-- nfa.rs `add_ending`: sets the flag and pushes the index, only when the
state exists. -/
def add_ending (nfa : NFAutomata) (i : Nat) : NFAutomata :=
  if i < nfa.states.length then
    { nfa with states := modifyIdx nfa.states i (fun s => { s with is_ending := true }),
               ending := nfa.ending ++ [i] }
  else nfa

/-- nfa.rs `remove_ending`: clears the flag and retains all other indices,
only when the state exists. -/
def remove_ending (nfa : NFAutomata) (i : Nat) : NFAutomata :=
  if i < nfa.states.length then
    { nfa with states := modifyIdx nfa.states i (fun s => { s with is_ending := false }),
               ending := nfa.ending.filter (fun x => x != i) }
  else nfa

/-- nfa.rs `add_transition` (`push_back` on the source state's deque). -/
def add_transition (nfa : NFAutomata) (fromState toState : Nat) (m : MatcherK) : NFAutomata :=
  if fromState < nfa.states.length then
    let f := fun s : State => { s with matchers := s.matchers ++ [(m, toState)] }
    { nfa with states := modifyIdx nfa.states fromState f }
  else nfa

/-- nfa.rs `unshift_transition` (`push_front`). -/
def unshift_transition (nfa : NFAutomata) (fromState toState : Nat) (m : MatcherK) : NFAutomata :=
  if fromState < nfa.states.length then
    let f := fun s : State => { s with matchers := (m, toState) :: s.matchers }
    { nfa with states := modifyIdx nfa.states fromState f }
  else nfa

/-- nfa.rs `fill_state`: append `n` blank states. -/
def fill_state (nfa : NFAutomata) (n : Nat) : NFAutomata :=
  { nfa with states := nfa.states ++ List.replicate n create_state }

/-- nfa.rs `declare_state`. -/
def declare_state (nfa : NFAutomata) (n initialIdx endingIdx : Nat) : NFAutomata :=
  ((nfa.fill_state n).set_initial initialIdx).add_ending endingIdx

/-- nfa.rs `add_char_transition`. -/
def add_char_transition (nfa : NFAutomata) (f t : Nat) (c : Char) : NFAutomata :=
  nfa.add_transition f t (.char c)

/-- nfa.rs `add_epsilon_transition`. -/
def add_epsilon_transition (nfa : NFAutomata) (f t : Nat) : NFAutomata :=
  nfa.add_transition f t .epsilon

/-- nfa.rs `mark_start_capture_group`. -/
def mark_start_capture_group (nfa : NFAutomata) (i g : Nat) (nm : Option String) : NFAutomata :=
  if i < nfa.states.length then
    let f := fun s : State => { s with start_group := s.start_group ++ [(g, nm)] }
    { nfa with states := modifyIdx nfa.states i f }
  else nfa

/-- nfa.rs `mark_end_capture_group`. -/
def mark_end_capture_group (nfa : NFAutomata) (i g : Nat) (nm : Option String) : NFAutomata :=
  if i < nfa.states.length then
    let f := fun s : State => { s with end_group := s.end_group ++ [(g, nm)] }
    { nfa with states := modifyIdx nfa.states i f }
  else nfa

/-- nfa.rs `append`, lines 195-223: copy every state of `other`
(`.iter().enumerate()`), translating the source endpoint through the
initial-state mapping but shifting the target endpoint unconditionally by
`origin_len - 1`. -/
def appendCopyStates (base union : Nat) : NFAutomata → List State → Nat → NFAutomata
  | nfa, [], _ => nfa
  | nfa, st :: rest, idx =>
    let fromState := if st.is_initial then union else idx + base - 1
    let n1 := st.start_group.foldl
      (fun n g => n.mark_start_capture_group fromState g.1 g.2) nfa
    let n2 := st.end_group.foldl
      (fun n g => n.mark_end_capture_group fromState g.1 g.2) n1
    let n3 := st.matchers.foldl
      (fun n mt => n.add_transition fromState (mt.2 + base - 1) mt.1) n2
    appendCopyStates base union n3 rest (idx + 1)

/-- nfa.rs `append(other, union_state)`: a no-op when `other` has fewer than
two states; otherwise reserve `other.len - 1` fresh slots, move `union_state`
out of the ending set, adopt `other`'s endings shifted by `origin_len - 1`,
and copy all capture markers and transitions. -/
def append (nfa : NFAutomata) (other : NFAutomata) (union : Nat) : NFAutomata :=
  if other.states.length < 2 then nfa
  else
    let origin_len := nfa.states.length
    let s1 := nfa.fill_state (other.states.length - 1)
    let s2 := s1.remove_ending union
    let s3 := other.ending.foldl (fun n i => n.add_ending (i + origin_len - 1)) s2
    appendCopyStates origin_len union s3 other.states 0

/-- nfa.rs `mark_capture_group`: start marker on the current initial state,
end marker on every current ending (iterating a snapshot of `ending`). -/
def mark_capture_group (nfa : NFAutomata) (g : Nat) (nm : Option String) : NFAutomata :=
  let n1 := nfa.mark_start_capture_group nfa.initial g nm
  n1.ending.foldl (fun n i => n.mark_end_capture_group i g nm) n1

end NFAutomata

/-- nfa.rs `CaptureGroupRange(left, right, name)`. -/
structure CaptureGroupRange where
  left : Nat
  right : Option Nat
  name : Option String
deriving DecidableEq, Repr

/-- The simulator's working group map, `HashMap<usize, CaptureGroupRange>`,
modelled as an insertion-ordered association list with unique keys. -/
def GroupMap := List (Nat × CaptureGroupRange)
deriving DecidableEq, Repr

/-- `HashMap::get` on the group map. -/
def gmFind (gm : GroupMap) (k : Nat) : Option CaptureGroupRange :=
  match gm.find? (fun e => e.1 == k) with
  | some e => some e.2
  | none => none

/-- `HashMap::entry(k).or_insert(v)`. -/
def gmOrInsert (gm : GroupMap) (k : Nat) (v : CaptureGroupRange) : GroupMap :=
  match gm.find? (fun e => e.1 == k) with
  | some _ => gm
  | none => List.append gm [(k, v)]

/-- `group_map.get_mut(&k).unwrap().1 = Some(i)` (the presence of the key is
checked by the caller). -/
def gmSetRight (gm : GroupMap) (k : Nat) (i : Nat) : GroupMap :=
  gm.map (fun e => if e.1 == k then (e.1, { e.2 with right := some i }) else e)

/-- nfa.rs `StackFrame(char_index, current_state_index, epsilon_mem, group_flag)`.
The `group_flag` is the `u64` bitmask of currently open groups (as `Nat`). -/
structure Frame where
  i : Nat
  state : Nat
  mem : List Nat
  flag : Nat
deriving DecidableEq, Repr

/-- Outcome of `NFAutomata::compute`: `accept` = `Some(map)`, `reject` =
`None`, `panic` = one of the two `.unwrap()` calls (state lookup at a popped
frame, group-map lookup when closing a group) failed.  `fuelOut` is an
artifact of the fuel-based embedding; it is proved unreachable for automata
with valid transition targets. -/
inductive SimResult where
  | accept (m : List (Nat × String))
  | reject
  | panic
  | fuelOut
deriving DecidableEq, Repr

/-- The source's `1u64 << group_index` (the `group_flag` is a `u64`, group
indices are `u32`): for `g < 64` the genuine bit `2 ^ g` (every flag value
built from such bits stays below `2 ^ 64`, so `Nat` and `u64` arithmetic
coincide); for `g ≥ 64` the shift amount reaches the 64-bit width and the
shift overflows — the program panics there (debug build), which `none`
models. -/
def shl1u64 (g : Nat) : Option Nat :=
  if g < 64 then some (1 <<< g) else none

/-- Step 2 of the simulator: `start_group` processing.  For each `(g, name)`:
set bit `g` in the flag (`group_flag |= 1 << g`; `none` models the shift
overflow panic for `g ≥ 64`) and `or_insert (left := i, right := None,
name)`. -/
def startGroups (sg : List (Nat × Option String)) (i : Nat) (flag : Nat) (gm : GroupMap) :
    Option (Nat × GroupMap) :=
  sg.foldl (fun p g =>
    p.bind (fun st =>
      (shl1u64 g.1).map (fun b =>
        (st.1 ||| b, gmOrInsert st.2 g.1 { left := i, right := none, name := g.2 }))))
    (some (flag, gm))

/-- Step 3: `end_group` processing.  For each `(g, _)`: compute the bit
`1 << g` (`none` models the shift overflow panic for `g ≥ 64`); when it is
set in the flag, write `right = i` through a `get_mut(..).unwrap()` (`none`
models that unwrap failing), clear the bit (the source's `flag &= !(1 << g)`;
since the branch guarantees the bit is set, clearing it is the same as xor
with `1 << g`), and perform the source's (dead) write to
`captured_group_flag`. -/
def endGroups (eg : List (Nat × Option String)) (i : Nat) (flag : Nat) (gm : GroupMap)
    (cap : Nat) : Option (Nat × GroupMap × Nat) :=
  eg.foldl (fun acc g =>
    acc.bind (fun st =>
      (shl1u64 g.1).bind (fun b =>
        if st.1 &&& b != 0 then
          match gmFind st.2.1 g.1 with
          | some _ =>
            some (st.1 ^^^ b, gmSetRight st.2.1 g.1 i, st.2.2 &&& b)
          | none => none
        else some st)))
    (some (flag, gm, cap))

/-- Step 4's result construction: for every group with both bounds, take the
character subrange `skip left, take (right - left)` of the input.  (`right -
left` is a `usize` subtraction in the source; truncated subtraction agrees
with it whenever it does not underflow.) -/
def buildCaptures (input : List Char) (gm : GroupMap) : List (Nat × String) :=
  gm.filterMap (fun e =>
    match e.2.right with
    | some r => some (e.1, String.mk ((input.drop e.2.left).take (r - e.2.left)))
    | none => none)

/-- Step 5, transition expansion: filter the state's transitions by the
position guard, then (reversed pushes onto the stack = declaration order at
the head) map each eligible transition to a new frame; an ε-transition is
dropped when its target is already in `epsilon_mem`, a consuming transition
resets the memo. -/
def expand (input : List Char) (i : Nat) (mem : List Nat) (flag : Nat)
    (ms : List (MatcherK × Nat)) : List Frame :=
  (ms.filter (fun mt =>
      if i < input.length then mt.1.matches (input.getD i default) else mt.1.isEpsilon)).filterMap
    (fun mt =>
      if mt.1.isEpsilon then
        if mem.contains mt.2 then none
        else some { i := i, state := mt.2, mem := mem ++ [mt.2], flag := flag }
      else some { i := i + 1, state := mt.2, mem := [], flag := flag })

/-- The `while let Some(frame) = stack.pop()` loop of `NFAutomata::compute`,
with an explicit fuel parameter. -/
def computeAux (A : NFAutomata) (input : List Char) :
    Nat → List Frame → GroupMap → Nat → SimResult
  | 0, _, _, _ => .fuelOut
  | _ + 1, [], _, _ => .reject
  | fuel + 1, fr :: rest, gm, cap =>
    match A.states.get? fr.state with
    | none => .panic
    | some st =>
      match startGroups st.start_group fr.i fr.flag gm with
      | none => .panic
      | some (flag1, gm1) =>
        match endGroups st.end_group fr.i flag1 gm1 cap with
        | none => .panic
        | some (flag2, gm2, cap2) =>
          if st.is_ending then .accept (buildCaptures input gm2)
          else computeAux A input fuel
            (expand input fr.i fr.mem flag2 st.matchers ++ rest) gm2 cap2

/-- Total number of transitions of an automaton. -/
def totalTrans (A : NFAutomata) : Nat :=
  (A.states.map (fun s => s.matchers.length)).sum

/-- Fuel sufficient for the simulator's search to drain (proved below):
an upper bound on the multiset measure of the initial stack. -/
def fuelB (A : NFAutomata) (len : Nat) : Nat :=
  (totalTrans A + 2) ^ ((len + 1) * (A.states.length + 1))

/-- nfa.rs `NFAutomata::compute(input)`. -/
def NFAutomata.compute (A : NFAutomata) (input : String) : SimResult :=
  computeAux A input.data (fuelB A input.data.length)
    [{ i := 0, state := A.initial, mem := [], flag := 0 }] [] 0

/-!
The external parser's IR (regex-syntax `HirKind`), restricted to the node
kinds the engine consumes (spec §6); unsupported kinds are `empty`.
`Literal` carries the characters (the source iterates the literal's bytes
cast to `char`; the claims only involve ASCII, where the two coincide), and
`classU` carries the inclusive scalar ranges of a `Class::Unicode`.
-/
inductive Hir where
  | empty
  | literal (s : List Char)
  | classU (rs : List (Char × Char))
  | concat (xs : List Hir)
  | alternation (xs : List Hir)
  | repetition (min : Nat) (max : Option Nat) (sub : Hir)
  | capture (index : Nat) (name : Option String) (sub : Hir)

/-- engine.rs `Engine::literal`: a chain of `len + 1` states with the i-th
character on transition `i → i+1`. -/
def litFold : NFAutomata → List Char → Nat → NFAutomata
  | nfa, [], _ => nfa
  | nfa, c :: cs, i => litFold (nfa.add_char_transition i (i + 1) c) cs (i + 1)

/-- engine.rs `Engine::literal`. -/
def buildLiteral (s : List Char) : NFAutomata :=
  litFold (NFAutomata.new.declare_state (s.length + 1) 0 s.length) s 0

/-- engine.rs `Engine::class`: one fresh state and one range transition per
range, chained (`i → i+1` for the i-th range). -/
def classFold : NFAutomata → List (Char × Char) → Nat → NFAutomata
  | nfa, [], _ => nfa
  | nfa, r :: rs, i =>
    classFold ((nfa.fill_state 1).add_transition i (i + 1) (.classUnicode r.1 r.2)) rs (i + 1)

/-- engine.rs `Engine::class` (the `Class::Unicode` arm). -/
def buildClass (rs : List (Char × Char)) : NFAutomata :=
  let n1 := classFold ((NFAutomata.new.fill_state 1).set_initial 0) rs 0
  n1.add_ending (n1.states.length - 1)

/-- engine.rs `Engine::alternation`, first loop: append every child fragment
at state 0. -/
def altAppendFold : NFAutomata → List NFAutomata → NFAutomata
  | nfa, [] => nfa
  | nfa, c :: cs => altAppendFold (nfa.append c 0) cs

/-- engine.rs `Engine::alternation`, second loop over a snapshot of `ending`:
wire every ending to the fresh terminal state by an ε edge. -/
def altEndFold : NFAutomata → List Nat → Nat → NFAutomata
  | nfa, [], _ => nfa
  | nfa, e :: es, re =>
    altEndFold ((nfa.add_epsilon_transition e re).remove_ending e) es re

/-- engine.rs `Engine::alternation`. -/
def buildAlternation (children : List NFAutomata) : NFAutomata :=
  let n1 := altAppendFold ((NFAutomata.new.fill_state 1).set_initial 0) children
  let n2 := n1.fill_state 1
  let re := n2.states.length - 1
  (altEndFold n2 n2.ending re).add_ending re

/-- engine.rs `Engine::concat` loop body: `ending.pop().unwrap()` (`none`
models the unwrap failing), `remove_ending`, then `append` at the popped
ending. -/
def concatFold : NFAutomata → List NFAutomata → Option NFAutomata
  | nfa, [] => some nfa
  | nfa, c :: cs =>
    match nfa.ending.getLast? with
    | none => none
    | some pe =>
      concatFold ((({ nfa with ending := nfa.ending.dropLast }).remove_ending pe).append c pe) cs

/-- engine.rs `Engine::concat`. -/
def buildConcat (children : List NFAutomata) : Option NFAutomata :=
  concatFold (((NFAutomata.new.fill_state 1).set_initial 0).add_ending 0) children

/-- engine.rs `Engine::repetition`, `for _ in 0..repetition.min` loop. -/
def repMinFold (sub : NFAutomata) : Nat → NFAutomata → Option NFAutomata
  | 0, nfa => some nfa
  | k + 1, nfa =>
    match nfa.ending.getLast? with
    | none => none
    | some pe =>
      repMinFold sub k ((({ nfa with ending := nfa.ending.dropLast }).remove_ending pe).append sub pe)

/-- engine.rs `Engine::repetition`, `for _ in repetition.min..max` loop:
splice an optional copy and record the pre-splice ending. -/
def repMaxFold (sub : NFAutomata) : Nat → NFAutomata → List Nat → Option (NFAutomata × List Nat)
  | 0, nfa, acc => some (nfa, acc)
  | k + 1, nfa, acc =>
    match nfa.ending.getLast? with
    | none => none
    | some ce =>
      repMaxFold sub k ((({ nfa with ending := nfa.ending.dropLast }).remove_ending ce).append sub ce)
        (acc ++ [ce])

/-- engine.rs `Engine::repetition`, the ε-bypass loop: each recorded optional
entry gets an ε edge to `*nfa.ending.last().unwrap()` (`none` models that
unwrap failing). -/
def repBypassFold : NFAutomata → List Nat → Option NFAutomata
  | nfa, [] => some nfa
  | nfa, e :: es =>
    match nfa.ending.getLast? with
    | none => none
    | some l => repBypassFold (nfa.add_epsilon_transition e l) es

/-- engine.rs `Engine::repetition`.  In the unbounded branch, the second
`ending.pop().unwrap()` (line 102) removes the index from the vector without
calling `remove_ending`, leaving that state's `is_ending` flag set. -/
def buildRepetition (mn : Nat) (mx : Option Nat) (sub : NFAutomata) : Option NFAutomata :=
  let n0 := ((NFAutomata.new.fill_state 1).set_initial 0).add_ending 0
  (repMinFold sub mn n0).bind (fun n1 =>
    match mx with
    | some m =>
      (repMaxFold sub (m - mn) n1 []).bind (fun p => repBypassFold p.1 p.2)
    | none =>
      match n1.ending.getLast? with
      | none => none
      | some le =>
        let n2 := (({ n1 with ending := n1.ending.dropLast }).remove_ending le).append sub le
        match n2.ending.getLast? with
        | none => none
        | some le2 =>
          let n3 := ({ n2 with ending := n2.ending.dropLast }).fill_state 1
          let newEnd := n3.states.length - 1
          some ((((n3.add_epsilon_transition le2 le).add_epsilon_transition le2 newEnd).add_epsilon_transition
            le le2).add_ending newEnd))

mutual

/-- engine.rs `Engine::ast_to_nfa`: dispatch on the IR node kind; unknown
kinds fall through to the default (empty) automaton.  `none` models a panic
during construction (the `ending.pop().unwrap()` calls). -/
def astToNfa : Hir → Option NFAutomata
  | .empty => some NFAutomata.new
  | .literal s => some (buildLiteral s)
  | .classU rs => some (buildClass rs)
  | .alternation xs => (astChildren xs).map buildAlternation
  | .concat xs => (astChildren xs).bind buildConcat
  | .repetition mn mx sub => (astToNfa sub).bind (buildRepetition mn mx)
  | .capture idx nm sub => (astToNfa sub).map (fun n => n.mark_capture_group idx nm)

/-- Build each child fragment of a `Concat`/`Alternation` node in order. -/
def astChildren : List Hir → Option (List NFAutomata)
  | [] => some []
  | x :: xs => (astToNfa x).bind (fun a => (astChildren xs).map (fun as => a :: as))

end

/-- engine.rs `Engine::try_from`: build the root fragment and wrap the whole
match in the implicit group 0. -/
def compileHir (h : Hir) : Option NFAutomata :=
  (astToNfa h).map (fun n => n.mark_capture_group 0 none)

/-- Outcome of engine.rs `Engine::exec`: `ok` = the returned string, `panic` =
one of its two `.unwrap()` calls failed (compute returned `None`, or group 0
is absent from the result map); `fuelOut` propagates the embedding artifact. -/
inductive ExecResult where
  | ok (s : String)
  | panic
  | fuelOut
deriving DecidableEq, Repr

/-- Lookup in the result map (`.get(&0.to_string())` in engine.rs; the result
map of nfa.rs `compute` is keyed by the numeric group index). -/
def resFind (m : List (Nat × String)) (k : Nat) : Option String :=
  match m.find? (fun e => e.1 == k) with
  | some e => some e.2
  | none => none

/-- engine.rs `Engine::exec`: `compute(s).unwrap().get(&0.to_string()).unwrap()`. -/
def execRes (A : NFAutomata) (input : String) : ExecResult :=
  match A.compute input with
  | .accept m =>
    match resFind m 0 with
    | some s => .ok s
    | none => .panic
  | .reject => .panic
  | .panic => .panic
  | .fuelOut => .fuelOut

/-- Convenience: did compute accept? -/
def acceptsRes : SimResult → Bool
  | .accept _ => true
  | _ => false

/-- Acceptance through an optional compile result (`false` when compilation
panicked). -/
def acceptsP (o : Option NFAutomata) (s : String) : Bool :=
  match o with
  | some A => acceptsRes (A.compute s)
  | none => false

/-- `execRes` through an optional compile result. -/
def execP (o : Option NFAutomata) (s : String) : ExecResult :=
  match o with
  | some A => execRes A s
  | none => .panic

/-!
Concrete patterns used by the claims.  The parser is an external collaborator
(spec §1/§6); the IR each pattern parses to is spelled out directly, following
the node kinds the spec lists (`[^1-9]` is emitted by the parser as the class
of the two complementary scalar ranges).
-/

/-- The IR of the pattern `1`. -/
def hirLit1 : Hir := .literal ['1']

/-- The IR of the pattern `x{0,0}`: `Repetition { min := 0, max := Some 0 }`. -/
def hirX00 : Hir := .repetition 0 (some 0) (.literal ['x'])

/-- The IR of the pattern `x{n}`: `Repetition { min := n, max := Some n }`. -/
def hirXRep (n : Nat) : Hir := .repetition n (some n) (.literal ['x'])

/-- The IR of the pattern `x*`. -/
def hirXStar : Hir := .repetition 0 none (.literal ['x'])

/-- The IR of the pattern `[^1-9]`: the two complementary scalar ranges,
scalar 0 up to the character `0` (scalar 0x30) and the character `:` (scalar
0x3A) up to the maximum scalar 0x10FFFF. -/
def hirNeg19 : Hir := .classU [(Char.ofNat 0, '0'), (':', Char.ofNat 0x10FFFF)]

/-- The IR of the pattern `(?<all>e(a)e)`. -/
def hirNamed : Hir :=
  .capture 1 (some "all")
    (.concat [.literal ['e'], .capture 2 none (.literal ['a']), .literal ['e']])

/-- The innermost interesting fragment of a pattern with 64 nested capture
groups (e.g. `((…(a)…))` 64 parentheses deep): the parser numbers the groups
1, 2, …, so the innermost one carries index 64 — the first index whose
`1u64 << index` shift overflows the 64-bit `group_flag`. -/
def hirBig : Hir := .capture 64 none (.literal ['a'])

/-- State `j` of the chain automaton: a single `c` transition to `j + 1`. -/
def chainMid (c : Char) (j : Nat) : State :=
  { matchers := [(.char c, j + 1)], is_initial := decide (j = 0), is_ending := false,
    start_group := [], end_group := [] }

/-- The last state of the chain automaton: no transitions, ending. -/
def chainLast (n : Nat) : State :=
  { matchers := [], is_initial := decide (n = 0), is_ending := true,
    start_group := [], end_group := [] }

/-- The last chain state with its ending flag cleared (an intermediate value
of the repetition builder). -/
def chainDead (n : Nat) : State :=
  { matchers := [], is_initial := decide (n = 0), is_ending := false,
    start_group := [], end_group := [] }

/-- The states of the chain automaton the builder produces both for the
literal `c^n` and for the repetition `c{n}`: states `0 .. n-1` each carry a
single `c` transition to their successor, state `n` is the sole ending. -/
def chainStates (c : Char) (n : Nat) : List State :=
  (List.range n).map (chainMid c) ++ [chainLast n]

/-- The unmarked chain fragment. -/
def chainBare (c : Char) (n : Nat) : NFAutomata :=
  { states := chainStates c n, initial := 0, ending := [n] }

/-- The chain fragment with its ending popped and cleared (the intermediate
value each iteration of the repetition/concat builders works on). -/
def chainPre (c : Char) (k : Nat) : NFAutomata :=
  { states := chainStates c k, initial := 0, ending := [] }

/-- The chain fragment wrapped in the implicit group 0 (what `compileHir`
produces for `c^n` as a literal and for `x{n}`). -/
def chainM (c : Char) (n : Nat) : NFAutomata :=
  (chainBare c n).mark_capture_group 0 none

/-- The automaton `compileHir` produces for `x{0,0}`: one state, both initial
and ending, opening and closing group 0. -/
def x00Auto : NFAutomata :=
  { states := [{ matchers := [], is_initial := true, is_ending := true,
                 start_group := [(0, none)], end_group := [(0, none)] }],
    initial := 0, ending := [0] }

/-- The working group map right after group 0 is opened at offset 0. -/
def gm0 : GroupMap := [(0, { left := 0, right := none, name := none })]

/-- Does the input carry `cnt` copies of `c` starting at offset `k`? -/
def chainOK (l : List Char) (c : Char) (k cnt : Nat) : Prop :=
  (l.drop k).take cnt = List.replicate cnt c

/-- The structural invariant of built automata that the claims rely on: every
ending index points to a valid state with the `is_ending` flag set, every
transition target is a valid index, and (for non-empty automata) the initial
index is valid. -/
def BuildInv (A : NFAutomata) : Prop :=
  (∀ k ∈ A.ending, ∃ st, A.states.get? k = some st ∧ st.is_ending = true) ∧
  (∀ s ∈ A.states, ∀ mt ∈ s.matchers, mt.2 < A.states.length) ∧
  (A.states ≠ [] → A.initial < A.states.length)

/-- All transition targets of `A` are valid state indices. -/
def TargetsValid (A : NFAutomata) : Prop :=
  ∀ s ∈ A.states, ∀ mt ∈ s.matchers, mt.2 < A.states.length

/-- Per-frame well-formedness used by the termination measure: the offset
never exceeds the input length and the ε-visited list is duplicate-free with
valid entries. -/
def FrOK (L S : Nat) (f : Frame) : Prop :=
  f.i ≤ L ∧ f.mem.Nodup ∧ ∀ x ∈ f.mem, x < S

/-- The per-frame measure: lexicographic (remaining input, remaining room in
the ε-visited list) packed into one natural number. -/
def frameMu (L S : Nat) (f : Frame) : Nat :=
  (L - f.i) * (S + 1) + (S - f.mem.length)

/-- The multiset measure of a stack: sum of `B ^ frameMu` over its frames. -/
def stackW (B L S : Nat) (st : List Frame) : Nat :=
  (st.map (fun f => B ^ frameMu L S f)).sum

/-- Every frame state on the stack is a valid index. -/
def StatesOnStackValid (S : Nat) (st : List Frame) : Prop :=
  ∀ f ∈ st, f.state < S

/-- Does the group map have an entry for key `g`? -/
def gmHas (gm : GroupMap) (g : Nat) : Prop :=
  (gmFind gm g).isSome = true

/-- Every group bit set in a frame's flag has an entry in the working group
map (the invariant that keeps the `get_mut(..).unwrap()` of step 3 from
panicking). -/
def FlagsCovered (gm : GroupMap) (st : List Frame) : Prop :=
  ∀ f ∈ st, ∀ g, f.flag &&& (1 <<< g) ≠ 0 → gmHas gm g

/-- Every capture-group index marked on the automaton's states is below the
64-bit width of the `u64` `group_flag`, so no `1 << group_index` the
simulator computes overflows. -/
def GroupsSmall (A : NFAutomata) : Prop :=
  ∀ s ∈ A.states, (∀ g ∈ s.start_group, g.1 < 64) ∧ (∀ g ∈ s.end_group, g.1 < 64)

/-- `x` is among the stored transitions of state `j` of the automaton. -/
def MemT (nfa : NFAutomata) (j : Nat) (x : MatcherK × Nat) : Prop :=
  ∃ st, nfa.states.get? j = some st ∧ x ∈ st.matchers

/-- Claim C10: every primitive mutation taking a state index — `set_initial`,
`add_ending`, `remove_ending`, `add_transition`, `unshift_transition`,
`mark_start_capture_group`, `mark_end_capture_group` — is a silent no-op that
leaves the automaton completely unchanged when the index is out of range
(`index ≥ states.len()`). -/
theorem primitive_mutations_out_of_range_noop (A : NFAutomata) (i : Nat)
    (h : A.states.length ≤ i) :
    A.set_initial i = A ∧ A.add_ending i = A ∧ A.remove_ending i = A ∧
    (∀ t m, A.add_transition i t m = A) ∧ (∀ t m, A.unshift_transition i t m = A) ∧
    (∀ g nm, A.mark_start_capture_group i g nm = A) ∧
    (∀ g nm, A.mark_end_capture_group i g nm = A) := by
  have h' : ¬ i < A.states.length := Nat.not_lt.mpr h
  refine ⟨?_, ?_, ?_, ?_, ?_, ?_, ?_⟩ <;>
    simp [NFAutomata.set_initial, NFAutomata.add_ending, NFAutomata.remove_ending,
      NFAutomata.add_transition, NFAutomata.unshift_transition,
      NFAutomata.mark_start_capture_group, NFAutomata.mark_end_capture_group, h']

/-- Witness for C10 at the two-state automaton of the literal `a` and the
out-of-range index 5. -/
theorem primitive_mutations_out_of_range_noop_witness :
    (buildLiteral ['a']).states.length ≤ 5 ∧
    (buildLiteral ['a']).set_initial 5 = buildLiteral ['a'] ∧
    (buildLiteral ['a']).add_ending 5 = buildLiteral ['a'] ∧
    (buildLiteral ['a']).remove_ending 5 = buildLiteral ['a'] ∧
    (buildLiteral ['a']).add_transition 5 0 .epsilon = buildLiteral ['a'] ∧
    (buildLiteral ['a']).unshift_transition 5 0 .epsilon = buildLiteral ['a'] ∧
    (buildLiteral ['a']).mark_start_capture_group 5 1 none = buildLiteral ['a'] ∧
    (buildLiteral ['a']).mark_end_capture_group 5 1 none = buildLiteral ['a'] := by
  have h := primitive_mutations_out_of_range_noop (buildLiteral ['a']) 5 (by decide)
  exact ⟨by decide, h.1, h.2.1, h.2.2.1, h.2.2.2.1 0 .epsilon, h.2.2.2.2.1 0 .epsilon,
    h.2.2.2.2.2.1 1 none, h.2.2.2.2.2.2 1 none⟩

/-- A two-state automaton used to refute C3's target mapping. -/
def selfC3 : NFAutomata := NFAutomata.new.fill_state 2

/-- A fragment whose state 1 has a transition back to its initial state 0. -/
def otherC3 : NFAutomata :=
  ((NFAutomata.new.fill_state 2).set_initial 0).add_char_transition 1 0 'z'

/-- Counterexample to claim C3: in `selfC3.append otherC3 0` (so
`base = 2`, `union_state = 0`), the transition `1 → 0` of `otherC3` — whose
target 0 is `otherC3`'s initial state — is copied with target
`0 + base - 1 = 1`, not `union_state = 0` as the claim's mapping requires. -/
theorem append_counterexample :
    2 ≤ otherC3.states.length ∧
    (otherC3.states.getD 0 default).is_initial = true ∧
    (otherC3.states.getD 1 default).matchers = [(.char 'z', 0)] ∧
    ((selfC3.append otherC3 0).states.getD 2 default).matchers = [(.char 'z', 1)] ∧
    ((selfC3.append otherC3 0).states.getD 2 default).matchers ≠ [(.char 'z', 0)] := by
  decide

/-- Claim C4 (evaluation at the failing input): the class fragment that the
builder produces for `[^1-9]` is a chain of its two ranges, so the compiled
engine rejects the one-character input `0` even though `'0'` lies in the
first range.  (The claim, following the spec's parallel-design prescription,
says this input is accepted.) -/
theorem class_chain_rejects_zero :
    (Char.ofNat 0 ≤ '0' ∧ '0' ≤ '0') ∧
    (compileHir hirNeg19).map (fun A => A.compute "0") = some SimResult.reject := by
  constructor
  · constructor <;> decide
  · decide

/-- Claim C5 (evaluation at the failing input): on the pattern
`(?<all>e(a)e)` and input `eae`, the result map built by nfa.rs `compute` is
keyed by the numeric group indices only — the group name `"all"` carried in
the `CaptureGroupRange` is discarded by the result construction, so no
name-keyed entry exists (engine.rs's `test_capture_group` expects one). -/
theorem compute_result_numeric_keys_only :
    (compileHir hirNamed).map (fun A => A.compute "eae") =
      some (SimResult.accept [(1, "eae"), (0, "eae"), (2, "a")]) := by
  decide

/-- Counterexample to claim C1: the engine compiled from the pattern `1`
accepts `1`, and also accepts its extension `12` — `compute` returns `Some`
at an ending state reached with the offset `i = 1` short of the input length,
so extra trailing characters do not cause rejection. -/
theorem accepts_extension_counterexample :
    acceptsP (compileHir hirLit1) "1" = true ∧
    acceptsP (compileHir hirLit1) "12" = true ∧ ("12" : String) ≠ "1" := by
  refine ⟨by decide, by decide, by decide⟩

/-- Counterexample to claim C2: for the IR of `x*`, the unbounded-repetition
builder pops state 1 off the ending vector without clearing its flag
(nfa.rs has no `remove_ending` after the second `pop` in `repetition`), so the
built automaton has `states[1].is_ending = true` while `1` is absent from the
ending vector. -/
theorem ending_bijection_counterexample :
    (astToNfa hirXStar).map
      (fun A => ((A.states.getD 1 default).is_ending, A.ending.contains 1)) =
      some (true, false) := by
  decide

/-- Counterexample to claim C9: the engine compiled from `x{0,0}` accepts the
nonempty input `y` (its sole state is both initial and ending, and acceptance
does not require the input to be consumed), so it does not accept only the
empty string. -/
theorem x00_accepts_nonempty_counterexample :
    acceptsP (compileHir hirX00) "y" = true ∧ ("y" : String) ≠ "" := by
  refine ⟨by decide, by decide⟩

/-- Counterexample to claim C6: on the successfully compiled pattern `1` and
the non-accepted input `2`, the simulator returns `None` (`reject`), and
`Engine::exec` — the execute operation of engine.rs — unwraps that `None` and
panics instead of returning it. -/
theorem exec_panics_on_mismatch_counterexample :
    (compileHir hirLit1).map (fun A => A.compute "2") = some SimResult.reject ∧
    execP (compileHir hirLit1) "2" = ExecResult.panic := by
  refine ⟨by decide, by decide⟩

open NFAutomata

theorem modifyIdx_length (l : List State) (i : Nat) (f : State → State) :
    (modifyIdx l i f).length = l.length := by
  induction l generalizing i with
  | nil => rfl
  | cons s rest ih =>
    cases i with
    | zero => rfl
    | succ j => simp [modifyIdx, ih]

theorem modifyIdx_get? (l : List State) (i : Nat) (f : State → State) (j : Nat) :
    (modifyIdx l i f).get? j = if i = j then (l.get? j).map f else l.get? j := by
  induction l generalizing i j with
  | nil => simp [modifyIdx]
  | cons s rest ih =>
    cases i with
    | zero =>
      cases j with
      | zero => simp [modifyIdx]
      | succ j' => simp [modifyIdx]
    | succ i' =>
      cases j with
      | zero => simp [modifyIdx]
      | succ j' =>
        simp only [modifyIdx, List.get?]
        rw [ih]
        by_cases h : i' = j'
        · simp [h]
        · simp [h, fun hh => h (Nat.succ_injective hh)]

theorem length_set_initial (A : NFAutomata) (i : Nat) :
    (A.set_initial i).states.length = A.states.length := by
  unfold NFAutomata.set_initial
  split <;> simp [modifyIdx_length]

theorem length_add_ending (A : NFAutomata) (i : Nat) :
    (A.add_ending i).states.length = A.states.length := by
  unfold NFAutomata.add_ending
  split <;> simp [modifyIdx_length]

theorem length_remove_ending (A : NFAutomata) (i : Nat) :
    (A.remove_ending i).states.length = A.states.length := by
  unfold NFAutomata.remove_ending
  split <;> simp [modifyIdx_length]

theorem length_add_transition (A : NFAutomata) (i t : Nat) (m : MatcherK) :
    (A.add_transition i t m).states.length = A.states.length := by
  unfold NFAutomata.add_transition
  split <;> simp [modifyIdx_length]

theorem length_mark_start (A : NFAutomata) (i g : Nat) (nm : Option String) :
    (A.mark_start_capture_group i g nm).states.length = A.states.length := by
  unfold NFAutomata.mark_start_capture_group
  split <;> simp [modifyIdx_length]

theorem length_mark_end (A : NFAutomata) (i g : Nat) (nm : Option String) :
    (A.mark_end_capture_group i g nm).states.length = A.states.length := by
  unfold NFAutomata.mark_end_capture_group
  split <;> simp [modifyIdx_length]

theorem length_fill_state (A : NFAutomata) (n : Nat) :
    (A.fill_state n).states.length = A.states.length + n := by
  simp [NFAutomata.fill_state]

theorem computeAux_nil (A : NFAutomata) (input : List Char) (fuel : Nat)
    (gm : GroupMap) (cap : Nat) :
    computeAux A input (fuel + 1) [] gm cap = .reject := rfl

theorem computeAux_cons (A : NFAutomata) (input : List Char) (fuel : Nat)
    (fr : Frame) (rest : List Frame) (gm : GroupMap) (cap : Nat) :
    computeAux A input (fuel + 1) (fr :: rest) gm cap =
      match A.states.get? fr.state with
      | none => .panic
      | some st =>
        match startGroups st.start_group fr.i fr.flag gm with
        | none => .panic
        | some (flag1, gm1) =>
          match endGroups st.end_group fr.i flag1 gm1 cap with
          | none => .panic
          | some (flag2, gm2, cap2) =>
            if st.is_ending then .accept (buildCaptures input gm2)
            else computeAux A input fuel
              (expand input fr.i fr.mem flag2 st.matchers ++ rest) gm2 cap2 := rfl

theorem chainStates_length (c : Char) (n : Nat) : (chainStates c n).length = n + 1 := by
  simp [chainStates]

theorem chainStates_get?_lt (c : Char) (n j : Nat) (h : j < n) :
    (chainStates c n).get? j =
      some { matchers := [(.char c, j + 1)], is_initial := decide (j = 0),
             is_ending := false, start_group := [], end_group := [] } := by
  unfold chainStates
  rw [List.get?_append (by simpa using h)]
  simp only [List.get?_map]
  rw [List.get?_eq_getElem?, List.getElem?_range h]
  simp [chainMid]

theorem chainStates_get?_last (c : Char) (n : Nat) :
    (chainStates c n).get? n =
      some { matchers := [], is_initial := decide (n = 0), is_ending := true,
             start_group := [], end_group := [] } := by
  unfold chainStates
  rw [List.get?_append_right (by simp)]
  simp [chainLast]

theorem chainM_eq (c : Char) (n : Nat) :
    chainM c n =
      { states := modifyIdx
          (modifyIdx (chainStates c n) 0 (fun s => { s with start_group := s.start_group ++ [(0, none)] }))
          n (fun s => { s with end_group := s.end_group ++ [(0, none)] }),
        initial := 0, ending := [n] } := by
  unfold chainM NFAutomata.mark_capture_group
  have h0 : (0 : Nat) < (chainBare c n).states.length := by
    simp [chainBare, chainStates_length]
  have hstart : (chainBare c n).mark_start_capture_group 0 0 none =
      { states := modifyIdx (chainStates c n) 0
          (fun s => { s with start_group := s.start_group ++ [(0, none)] }),
        initial := 0, ending := [n] } := by
    unfold NFAutomata.mark_start_capture_group
    rw [if_pos h0]
    rfl
  have hinit : (chainBare c n).initial = 0 := rfl
  rw [hinit, hstart]
  simp only [List.foldl]
  unfold NFAutomata.mark_end_capture_group
  rw [if_pos (by simp [modifyIdx_length, chainStates_length])]

theorem chainM_states_length (c : Char) (n : Nat) :
    (chainM c n).states.length = n + 1 := by
  rw [chainM_eq]
  simp [modifyIdx_length, chainStates_length]

theorem chainM_get?_zero (c : Char) (n : Nat) (hn : 1 ≤ n) :
    (chainM c n).states.get? 0 =
      some { matchers := [(.char c, 1)], is_initial := true, is_ending := false,
             start_group := [(0, none)], end_group := [] } := by
  have hne : ¬ n = 0 := by omega
  rw [chainM_eq]
  simp only [modifyIdx_get?, if_neg hne, if_pos rfl]
  rw [chainStates_get?_lt c n 0 hn]
  simp

theorem chainM_get?_mid (c : Char) (n k : Nat) (h1 : 1 ≤ k) (h2 : k < n) :
    (chainM c n).states.get? k =
      some { matchers := [(.char c, k + 1)], is_initial := false, is_ending := false,
             start_group := [], end_group := [] } := by
  have hne1 : ¬ n = k := by omega
  have hne2 : ¬ (0 : Nat) = k := by omega
  have hne3 : ¬ k = 0 := by omega
  rw [chainM_eq]
  simp only [modifyIdx_get?, if_neg hne1, if_neg hne2]
  rw [chainStates_get?_lt c n k h2]
  simp [hne3]

theorem chainM_get?_last (c : Char) (n : Nat) (hn : 1 ≤ n) :
    (chainM c n).states.get? n =
      some { matchers := [], is_initial := false, is_ending := true,
             start_group := [], end_group := [(0, none)] } := by
  have hne1 : ¬ (0 : Nat) = n := by omega
  have hne2 : ¬ n = 0 := by omega
  rw [chainM_eq]
  simp only [modifyIdx_get?, if_pos rfl, if_neg hne1]
  rw [chainStates_get?_last c n]
  simp [hne2]

theorem modifyIdx_map_eq {g : State → Nat} (l : List State) (i : Nat) (f : State → State)
    (h : ∀ s, g (f s) = g s) : (modifyIdx l i f).map g = l.map g := by
  induction l generalizing i with
  | nil => rfl
  | cons s rest ih =>
    cases i with
    | zero => simp [modifyIdx, h]
    | succ j => simp [modifyIdx, ih]

theorem chainM_totalTrans (c : Char) (n : Nat) : totalTrans (chainM c n) = n := by
  unfold totalTrans
  rw [chainM_eq]
  simp only
  rw [modifyIdx_map_eq]
  rw [modifyIdx_map_eq]
  · unfold chainStates
    simp only [List.map_append, List.map_map]
    have hc : ((fun s : State => s.matchers.length) ∘ chainMid c) = fun _ : Nat => 1 := rfl
    rw [hc]
    simp [chainLast]
  · intro s; rfl
  · intro s; rfl

theorem modifyIdx_append_left (l1 l2 : List State) (i : Nat) (f : State → State)
    (h : i < l1.length) :
    modifyIdx (l1 ++ l2) i f = modifyIdx l1 i f ++ l2 := by
  induction l1 generalizing i with
  | nil => simp at h
  | cons s rest ih =>
    cases i with
    | zero => simp [modifyIdx]
    | succ j =>
      simp only [List.cons_append, modifyIdx, List.length_cons, List.append_eq] at *
      rw [ih j (by omega)]

theorem modifyIdx_append_right (l1 l2 : List State) (i : Nat) (f : State → State)
    (h : l1.length ≤ i) :
    modifyIdx (l1 ++ l2) i f = l1 ++ modifyIdx l2 (i - l1.length) f := by
  induction l1 generalizing i with
  | nil => simp
  | cons s rest ih =>
    cases i with
    | zero => simp at h
    | succ j =>
      simp only [List.cons_append, modifyIdx, List.length_cons, List.append_eq] at *
      rw [ih j (by omega), Nat.succ_sub_succ]

theorem buildLiteral_single (c : Char) : buildLiteral [c] =
    { states := [
        { matchers := [(.char c, 1)], is_initial := true, is_ending := false,
          start_group := [], end_group := [] },
        { matchers := [], is_initial := false, is_ending := true,
          start_group := [], end_group := [] }],
      initial := 0, ending := [1] } := rfl

theorem nfa_ext (A B : NFAutomata) (hs : A.states = B.states) (hi : A.initial = B.initial)
    (he : A.ending = B.ending) : A = B := by
  cases A
  cases B
  simp only at hs hi he
  rw [hs, hi, he]

theorem ending_set_initial (A : NFAutomata) (i : Nat) : (A.set_initial i).ending = A.ending := by
  unfold NFAutomata.set_initial
  split <;> rfl

theorem ending_add_ending (A : NFAutomata) (i : Nat) :
    (A.add_ending i).ending = if i < A.states.length then A.ending ++ [i] else A.ending := by
  unfold NFAutomata.add_ending
  split <;> rfl

theorem ending_remove_ending (A : NFAutomata) (i : Nat) :
    (A.remove_ending i).ending =
      if i < A.states.length then A.ending.filter (fun x => x != i) else A.ending := by
  unfold NFAutomata.remove_ending
  split <;> rfl

theorem ending_add_transition (A : NFAutomata) (i t : Nat) (m : MatcherK) :
    (A.add_transition i t m).ending = A.ending := by
  unfold NFAutomata.add_transition
  split <;> rfl

theorem ending_mark_start (A : NFAutomata) (i g : Nat) (nm : Option String) :
    (A.mark_start_capture_group i g nm).ending = A.ending := by
  unfold NFAutomata.mark_start_capture_group
  split <;> rfl

theorem ending_mark_end (A : NFAutomata) (i g : Nat) (nm : Option String) :
    (A.mark_end_capture_group i g nm).ending = A.ending := by
  unfold NFAutomata.mark_end_capture_group
  split <;> rfl

theorem ending_fill_state (A : NFAutomata) (n : Nat) : (A.fill_state n).ending = A.ending := rfl

theorem initial_add_ending (A : NFAutomata) (i : Nat) : (A.add_ending i).initial = A.initial := by
  unfold NFAutomata.add_ending
  split <;> rfl

theorem initial_remove_ending (A : NFAutomata) (i : Nat) :
    (A.remove_ending i).initial = A.initial := by
  unfold NFAutomata.remove_ending
  split <;> rfl

theorem initial_add_transition (A : NFAutomata) (i t : Nat) (m : MatcherK) :
    (A.add_transition i t m).initial = A.initial := by
  unfold NFAutomata.add_transition
  split <;> rfl

theorem initial_mark_start (A : NFAutomata) (i g : Nat) (nm : Option String) :
    (A.mark_start_capture_group i g nm).initial = A.initial := by
  unfold NFAutomata.mark_start_capture_group
  split <;> rfl

theorem initial_mark_end (A : NFAutomata) (i g : Nat) (nm : Option String) :
    (A.mark_end_capture_group i g nm).initial = A.initial := by
  unfold NFAutomata.mark_end_capture_group
  split <;> rfl

theorem initial_fill_state (A : NFAutomata) (n : Nat) : (A.fill_state n).initial = A.initial := rfl

theorem states_set_initial_get? (A : NFAutomata) (i j : Nat) :
    (A.set_initial i).states.get? j =
      if i = j then (A.states.get? j).map (fun s => { s with is_initial := true })
      else A.states.get? j := by
  unfold NFAutomata.set_initial
  by_cases h : i < A.states.length
  · rw [if_pos h]
    exact modifyIdx_get? _ _ _ _
  · rw [if_neg h]
    by_cases hij : i = j
    · subst hij
      rw [if_pos rfl, List.get?_eq_none.mpr (by omega)]
      rfl
    · rw [if_neg hij]

theorem states_add_ending_get? (A : NFAutomata) (i j : Nat) :
    (A.add_ending i).states.get? j =
      if i = j then (A.states.get? j).map (fun s => { s with is_ending := true })
      else A.states.get? j := by
  unfold NFAutomata.add_ending
  by_cases h : i < A.states.length
  · rw [if_pos h]
    exact modifyIdx_get? _ _ _ _
  · rw [if_neg h]
    by_cases hij : i = j
    · subst hij
      rw [if_pos rfl, List.get?_eq_none.mpr (by omega)]
      rfl
    · rw [if_neg hij]

theorem states_remove_ending_get? (A : NFAutomata) (i j : Nat) :
    (A.remove_ending i).states.get? j =
      if i = j then (A.states.get? j).map (fun s => { s with is_ending := false })
      else A.states.get? j := by
  unfold NFAutomata.remove_ending
  by_cases h : i < A.states.length
  · rw [if_pos h]
    exact modifyIdx_get? _ _ _ _
  · rw [if_neg h]
    by_cases hij : i = j
    · subst hij
      rw [if_pos rfl, List.get?_eq_none.mpr (by omega)]
      rfl
    · rw [if_neg hij]

theorem states_add_transition_get? (A : NFAutomata) (i t : Nat) (m : MatcherK) (j : Nat) :
    (A.add_transition i t m).states.get? j =
      if i = j then (A.states.get? j).map (fun s => { s with matchers := s.matchers ++ [(m, t)] })
      else A.states.get? j := by
  unfold NFAutomata.add_transition
  by_cases h : i < A.states.length
  · rw [if_pos h]
    exact modifyIdx_get? _ _ _ _
  · rw [if_neg h]
    by_cases hij : i = j
    · subst hij
      rw [if_pos rfl, List.get?_eq_none.mpr (by omega)]
      rfl
    · rw [if_neg hij]

theorem states_mark_start_get? (A : NFAutomata) (i g : Nat) (nm : Option String) (j : Nat) :
    (A.mark_start_capture_group i g nm).states.get? j =
      if i = j then (A.states.get? j).map (fun s => { s with start_group := s.start_group ++ [(g, nm)] })
      else A.states.get? j := by
  unfold NFAutomata.mark_start_capture_group
  by_cases h : i < A.states.length
  · rw [if_pos h]
    exact modifyIdx_get? _ _ _ _
  · rw [if_neg h]
    by_cases hij : i = j
    · subst hij
      rw [if_pos rfl, List.get?_eq_none.mpr (by omega)]
      rfl
    · rw [if_neg hij]

theorem states_mark_end_get? (A : NFAutomata) (i g : Nat) (nm : Option String) (j : Nat) :
    (A.mark_end_capture_group i g nm).states.get? j =
      if i = j then (A.states.get? j).map (fun s => { s with end_group := s.end_group ++ [(g, nm)] })
      else A.states.get? j := by
  unfold NFAutomata.mark_end_capture_group
  by_cases h : i < A.states.length
  · rw [if_pos h]
    exact modifyIdx_get? _ _ _ _
  · rw [if_neg h]
    by_cases hij : i = j
    · subst hij
      rw [if_pos rfl, List.get?_eq_none.mpr (by omega)]
      rfl
    · rw [if_neg hij]

theorem states_fill_state_get? (A : NFAutomata) (n j : Nat) :
    (A.fill_state n).states.get? j =
      if j < A.states.length then A.states.get? j
      else if j < A.states.length + n then some create_state
      else none := by
  unfold NFAutomata.fill_state
  simp only
  by_cases h : j < A.states.length
  · rw [if_pos h]
    exact List.get?_append (by simpa using h)
  · rw [if_neg h]
    rw [List.get?_append_right (by omega)]
    by_cases h2 : j < A.states.length + n
    · rw [if_pos h2]
      rw [List.get?_eq_get (by simp; omega)]
      simp [List.get_replicate]
    · rw [if_neg h2]
      rw [List.get?_eq_none.mpr (by simp; omega)]

theorem chain_step (c : Char) (k : Nat) :
    ((({ chainBare c k with ending := ([k] : List Nat).dropLast }).remove_ending k).append
      (buildLiteral [c]) k) = chainBare c (k + 1) := by
  unfold NFAutomata.append
  rw [if_neg (by simp [buildLiteral_single])]
  simp only [buildLiteral_single, appendCopyStates, List.foldl]
  have hbase : ({ chainBare c k with ending := ([k] : List Nat).dropLast }) = chainPre c k := rfl
  rw [hbase]
  have hlen1 : ((chainPre c k).remove_ending k).states.length = k + 1 := by
    rw [length_remove_ending]
    simp [chainPre, chainStates_length]
  simp only [hlen1, List.length_cons, List.length_nil, List.length_singleton, if_true]
  have e2 : (0 + 1 + (k + 1) - 1) = k + 1 := by omega
  have e3 : (0 + 1 + 1 - 1 : Nat) = 1 := rfl
  rw [e2, e3]
  apply nfa_ext
  · apply List.ext
    intro j
    rw [states_add_transition_get?, states_add_ending_get?, states_remove_ending_get?,
      states_fill_state_get?, states_remove_ending_get?]
    rw [hlen1]
    have hbget : ∀ jj, ((chainPre c k).states).get? jj = (chainStates c k).get? jj :=
      fun jj => rfl
    by_cases hjk : j < k
    · have h1 : ¬ (k = j) := by omega
      have h2 : ¬ (k + 1 = j) := by omega
      have h3 : j < k + 1 := by omega
      simp only [if_neg h1, if_neg h2, if_pos h3, hbget]
      rw [chainStates_get?_lt c k j hjk]
      have h5 := chainStates_get?_lt c (k + 1) j (by omega)
      rw [show (chainBare c (k+1)).states = chainStates c (k+1) from rfl, h5]
    · by_cases hjek : k = j
      · subst hjek
        have h2 : ¬ (k + 1 = k) := by omega
        have h3 : k < k + 1 := by omega
        simp only [if_neg h2, if_pos h3, eq_self_iff_true, if_true, hbget]
        rw [chainStates_get?_last c k]
        rw [show (chainBare c (k+1)).states = chainStates c (k+1) from rfl,
          chainStates_get?_lt c (k + 1) k (by omega)]
        simp [chainMid, chainLast]
      · by_cases hjk1 : j = k + 1
        · subst hjk1
          have h1 : ¬ (k = k + 1) := by omega
          have h3 : ¬ (k + 1 < k + 1) := by omega
          have h4 : k + 1 < k + 1 + 1 := by omega
          simp only [if_neg h1, if_neg h3, if_pos h4, eq_self_iff_true, if_true]
          rw [show (chainBare c (k+1)).states = chainStates c (k+1) from rfl,
            chainStates_get?_last c (k + 1)]
          simp [create_state, chainLast, Nat.succ_ne_zero]
        · have h1 : ¬ (k = j) := by omega
          have h2 : ¬ (k + 1 = j) := by omega
          have h3 : ¬ (j < k + 1) := by omega
          have h4 : ¬ (j < k + 1 + 1) := by omega
          simp only [if_neg h1, if_neg h2, if_neg h3, if_neg h4, hbget]
          have hnone2 : (chainStates c (k + 1)).get? j = none :=
            List.get?_eq_none.mpr (by rw [chainStates_length]; omega)
          rw [show (chainBare c (k+1)).states = chainStates c (k+1) from rfl, hnone2]
  · rw [initial_add_transition, initial_add_ending, initial_remove_ending, initial_fill_state,
      initial_remove_ending]
    rfl
  · rw [ending_add_transition, ending_add_ending]
    have hlen3 : ((((chainPre c k).remove_ending k).fill_state 1).remove_ending
        k).states.length = k + 2 := by
      rw [length_remove_ending, length_fill_state, hlen1]
    rw [hlen3, if_pos (by omega)]
    rw [ending_remove_ending]
    have hlen4 : (((chainPre c k).remove_ending k).fill_state 1).states.length = k + 2 := by
      rw [length_fill_state, hlen1]
    rw [hlen4, if_pos (by omega), ending_fill_state, ending_remove_ending]
    simp [chainPre, chainStates_length, chainBare]

theorem repMinFold_chain (c : Char) (m k : Nat) :
    repMinFold (buildLiteral [c]) m (chainBare c k) = some (chainBare c (k + m)) := by
  induction m generalizing k with
  | zero => rfl
  | succ m ih =>
    unfold repMinFold
    have hget : (chainBare c k).ending.getLast? = some k := rfl
    rw [hget]
    simp only
    rw [show (chainBare c k).ending = [k] from rfl, chain_step, ih (k + 1),
      show k + 1 + m = k + (m + 1) from by omega]

theorem chainBare_zero : chainBare 'x' 0 =
    ((NFAutomata.new.fill_state 1).set_initial 0).add_ending 0 := by decide

theorem astToNfa_xRep (n : Nat) : astToNfa (hirXRep n) = some (chainBare 'x' n) := by
  show (astToNfa (.literal ['x'])).bind (buildRepetition n (some n)) = some (chainBare 'x' n)
  have h1 : astToNfa (.literal ['x']) = some (buildLiteral ['x']) := rfl
  rw [h1]
  show buildRepetition n (some n) (buildLiteral ['x']) = some (chainBare 'x' n)
  unfold buildRepetition
  rw [show ((NFAutomata.new.fill_state 1).set_initial 0).add_ending 0 = chainBare 'x' 0 from
    chainBare_zero.symm]
  simp only [repMinFold_chain 'x' n 0, Option.some_bind, Nat.zero_add, Nat.sub_self]
  rfl

theorem compileHir_xRep (n : Nat) : compileHir (hirXRep n) = some (chainM 'x' n) := by
  unfold compileHir
  rw [astToNfa_xRep]
  rfl

theorem expand_single_char (l : List Char) (i : Nat) (mem : List Nat) (flag : Nat)
    (c : Char) (t : Nat) :
    expand l i mem flag [(.char c, t)] =
      if i < l.length then
        (if c == l.getD i default then [{ i := i + 1, state := t, mem := [], flag := flag }]
         else [])
      else [] := by
  unfold expand
  rw [List.filter_cons]
  simp only [MatcherK.matches, MatcherK.isEpsilon, List.filter_nil]
  by_cases hkl : i < l.length
  · simp only [if_pos hkl]
    by_cases hc : c == l.getD i default
    · simp only [hc, if_true, List.filterMap_cons, List.filterMap_nil, MatcherK.isEpsilon,
        Bool.false_eq_true, if_false]
    · simp only [hc, Bool.false_eq_true, if_false, List.filterMap_nil]
  · simp only [if_neg hkl, Bool.false_eq_true, if_false, List.filterMap_nil]

theorem chain_run (c : Char) (n : Nat) (l : List Char) :
    ∀ (fuel k : Nat) (mem : List Nat), 1 ≤ k → k ≤ n → n - k + 2 ≤ fuel →
    computeAux (chainM c n) l fuel [{ i := k, state := k, mem := mem, flag := 1 }] gm0 0 =
      if (l.drop k).take (n - k) = List.replicate (n - k) c
      then SimResult.accept [(0, String.mk (l.take n))] else .reject := by
  intro fuel
  induction fuel with
  | zero => intro k mem h1 h2 h3; omega
  | succ f ih =>
    intro k mem hk1 hkn hf
    rw [computeAux_cons]
    by_cases hke : k = n
    · subst hke
      rw [chainM_get?_last c k hk1]
      simp only
      have hsg : startGroups [] k 1 gm0 = some (1, gm0) := rfl
      rw [hsg]
      simp only
      have hend : endGroups [(0, (none : Option String))] k 1 gm0 0 =
          some (0, [(0, { left := 0, right := some k, name := none })], 0) := rfl
      rw [hend]
      simp only [if_pos rfl]
      have hbc : buildCaptures l [(0, { left := 0, right := some k, name := none })] =
          [(0, String.mk ((l.drop 0).take (k - 0)))] := rfl
      rw [hbc]
      rw [if_pos (by simp)]
      simp
    · have hklt : k < n := by omega
      rw [chainM_get?_mid c n k hk1 hklt]
      simp only
      have hsg : startGroups [] k 1 gm0 = some (1, gm0) := rfl
      rw [hsg]
      simp only
      have hend : endGroups [] k 1 gm0 0 = some (1, gm0, 0) := rfl
      rw [hend]
      simp only [Bool.false_eq_true, if_false]
      rw [expand_single_char l k mem 1 c (k + 1)]
      have hm : n - k = (n - (k + 1)) + 1 := by omega
      by_cases hkl : k < l.length
      · rw [if_pos hkl]
        by_cases hc : c == l.getD k default
        · rw [if_pos hc]
          simp only [List.cons_append, List.nil_append]
          rw [ih (k + 1) [] (by omega) (by omega) (by omega)]
          have hdropk : l.drop k = l.getD k default :: l.drop (k + 1) := by
            rw [List.drop_eq_getElem_cons hkl]
            simp [List.getD_eq_getElem?_getD, List.getElem?_eq_getElem hkl]
          have hhead : l.getD k default = c := (eq_of_beq hc).symm
          have hiff : ((l.drop (k + 1)).take (n - (k + 1)) = List.replicate (n - (k + 1)) c) ↔
              ((l.drop k).take (n - k) = List.replicate (n - k) c) := by
            rw [hm, hdropk, hhead, List.take_succ_cons, List.replicate_succ]
            simp
          by_cases hcond : (l.drop (k + 1)).take (n - (k + 1)) = List.replicate (n - (k + 1)) c
          · rw [if_pos hcond, if_pos (hiff.mp hcond)]
          · rw [if_neg hcond, if_neg (fun hx => hcond (hiff.mpr hx))]
        · rw [if_neg hc]
          simp only [List.nil_append]
          obtain ⟨g, rfl⟩ : ∃ g, f = g + 1 := ⟨f - 1, by omega⟩
          rw [computeAux_nil]
          have hdropk : l.drop k = l.getD k default :: l.drop (k + 1) := by
            rw [List.drop_eq_getElem_cons hkl]
            simp [List.getD_eq_getElem?_getD, List.getElem?_eq_getElem hkl]
          rw [if_neg ?_]
          rw [hm, hdropk, List.take_succ_cons, List.replicate_succ]
          intro hx
          have hx1 := (List.cons.injEq _ _ _ _).mp hx
          exact hc (by rw [hx1.1]; exact beq_self_eq_true c)
      · rw [if_neg hkl]
        simp only [List.nil_append]
        obtain ⟨g, rfl⟩ : ∃ g, f = g + 1 := ⟨f - 1, by omega⟩
        rw [computeAux_nil]
        have hdrop : l.drop k = [] := by
          rw [List.drop_eq_nil_iff]
          omega
        rw [if_neg ?_]
        rw [hm, hdrop, List.replicate_succ]
        simp

theorem fuelB_chainM_big (c : Char) (n L : Nat) : n + 2 ≤ fuelB (chainM c n) L := by
  unfold fuelB
  rw [chainM_totalTrans, chainM_states_length]
  calc n + 2 = (n + 2) ^ 1 := by ring
  _ ≤ (n + 2) ^ ((L + 1) * (n + 1 + 1)) := by
      apply Nat.pow_le_pow_right (by omega)
      have h1 : 1 ≤ L + 1 := by omega
      have h2 : 1 ≤ n + 1 + 1 := by omega
      calc 1 = 1 * 1 := by ring
      _ ≤ (L + 1) * (n + 1 + 1) := Nat.mul_le_mul h1 h2

theorem chainM_compute (c : Char) (n : Nat) (hn : 1 ≤ n) (s : String) :
    (chainM c n).compute s =
      if s.data.take n = List.replicate n c
      then SimResult.accept [(0, String.mk (s.data.take n))] else .reject := by
  unfold NFAutomata.compute
  have hbig := fuelB_chainM_big c n s.data.length
  obtain ⟨m, hm⟩ : ∃ m, fuelB (chainM c n) s.data.length = m + 1 :=
    ⟨fuelB (chainM c n) s.data.length - 1, by omega⟩
  have hmn : n + 1 ≤ m := by omega
  rw [hm]
  have hinit : (chainM c n).initial = 0 := by rw [chainM_eq]
  rw [hinit, computeAux_cons, chainM_get?_zero c n hn]
  simp only
  have hsg : startGroups [(0, (none : Option String))] 0 0 [] = some (1, gm0) := rfl
  rw [hsg]
  simp only
  have hend : endGroups [] 0 1 gm0 0 = some (1, gm0, 0) := rfl
  rw [hend]
  simp only [Bool.false_eq_true, if_false]
  rw [expand_single_char]
  by_cases h0 : 0 < s.data.length
  · rw [if_pos h0]
    by_cases hc : c == s.data.getD 0 default
    · rw [if_pos hc]
      simp only [List.cons_append, List.nil_append]
      rw [chain_run c n s.data m 1 [] (by omega) hn (by omega)]
      have hdropk : s.data.drop 0 = s.data.getD 0 default :: s.data.drop 1 := by
        rw [List.drop_eq_getElem_cons h0]
        simp [List.getD_eq_getElem?_getD, List.getElem?_eq_getElem h0]
      have hhead : s.data.getD 0 default = c := (eq_of_beq hc).symm
      have hnm : n = (n - 1) + 1 := by omega
      have hiff : ((s.data.drop 1).take (n - 1) = List.replicate (n - 1) c) ↔
          (s.data.take n = List.replicate n c) := by
        conv => rhs; rw [hnm, show s.data = s.data.drop 0 from (List.drop_zero _).symm, hdropk,
          hhead, List.take_succ_cons, List.replicate_succ]
        simp
      have htk : s.data.take n = (s.data.drop 0).take (n - 0) := by
        rw [List.drop_zero, Nat.sub_zero]
      by_cases hcond : (s.data.drop 1).take (n - 1) = List.replicate (n - 1) c
      · rw [if_pos hcond, if_pos (hiff.mp hcond), htk]
      · rw [if_neg hcond, if_neg (fun hx => hcond (hiff.mpr hx))]
    · rw [if_neg hc]
      simp only [List.nil_append]
      obtain ⟨g, rfl⟩ : ∃ g, m = g + 1 := ⟨m - 1, by omega⟩
      rw [computeAux_nil]
      have hdropk : s.data.drop 0 = s.data.getD 0 default :: s.data.drop 1 := by
        rw [List.drop_eq_getElem_cons h0]
        simp [List.getD_eq_getElem?_getD, List.getElem?_eq_getElem h0]
      rw [if_neg ?_]
      have hnm : n = (n - 1) + 1 := by omega
      rw [hnm, show s.data = s.data.drop 0 from (List.drop_zero _).symm, hdropk,
        List.take_succ_cons, List.replicate_succ]
      intro hx
      have hx1 := (List.cons.injEq _ _ _ _).mp hx
      exact hc (by rw [hx1.1]; exact beq_self_eq_true c)
  · rw [if_neg h0]
    simp only [List.nil_append]
    obtain ⟨g, rfl⟩ : ∃ g, m = g + 1 := ⟨m - 1, by omega⟩
    rw [computeAux_nil]
    have hnil : s.data = [] := by
      cases hd : s.data with
      | nil => rfl
      | cons a t => rw [hd] at h0; simp at h0
    rw [if_neg ?_]
    rw [hnil]
    have hnm : n = (n - 1) + 1 := by omega
    rw [hnm, List.replicate_succ]
    simp

theorem chainM_zero_compute (s : String) :
    (chainM 'x' 0).compute s = .accept [(0, String.mk [])] := by
  have hcc : chainM 'x' 0 = x00Auto := by decide
  rw [hcc]
  unfold NFAutomata.compute
  obtain ⟨m, hm⟩ : ∃ m, fuelB x00Auto s.data.length = m + 1 := by
    refine ⟨fuelB x00Auto s.data.length - 1, ?_⟩
    have hp : 0 < fuelB x00Auto s.data.length := Nat.pos_pow_of_pos _ (by decide)
    omega
  rw [hm, computeAux_cons]
  rfl

/-- Claim C9 (amended): the engine compiled from `x{0,0}` accepts every input
(acceptance does not require consuming the input, and its single state is both
initial and ending); for `n ≥ 1` the engine compiled from `x{n}` accepts an
input iff the input's first `n` characters are `n` copies of `x` — trailing
characters are ignored. -/
theorem repetition_extremes_amended :
    (∀ s : String, acceptsP (compileHir hirX00) s = true) ∧
    (∀ (n : Nat) (s : String), 1 ≤ n →
      (acceptsP (compileHir (hirXRep n)) s = true ↔
        s.data.take n = List.replicate n 'x')) := by
  constructor
  · intro s
    have h00 : compileHir hirX00 = some (chainM 'x' 0) := compileHir_xRep 0
    rw [h00]
    show acceptsRes ((chainM 'x' 0).compute s) = true
    rw [chainM_zero_compute]
    rfl
  · intro n s hn
    rw [compileHir_xRep n]
    show acceptsRes ((chainM 'x' n).compute s) = true ↔ _
    rw [chainM_compute 'x' n hn s]
    by_cases hcond : s.data.take n = List.replicate n 'x'
    · rw [if_pos hcond]
      simp [acceptsRes, hcond]
    · rw [if_neg hcond]
      simp [acceptsRes, hcond]

/-- Witness for the amended C9 at `n = 2` and the input `xxzz` (which has
`xx` as a prefix and is accepted despite the trailing `zz`). -/
theorem repetition_extremes_amended_witness :
    1 ≤ 2 ∧ (acceptsP (compileHir (hirXRep 2)) "xxzz" = true ↔
      ("xxzz" : String).data.take 2 = List.replicate 2 'x') :=
  ⟨by omega, repetition_extremes_amended.2 2 "xxzz" (by omega)⟩

/-- Claim C1 (amended): `compute` returns `Some` as soon as an ending state is
reached, with no requirement that the offset equal the input length; the
engine compiled from the pattern `1` (the automaton `chainM '1' 1`) accepts
every input beginning with `'1'`, capturing group 0 = `"1"` — in particular
every extension of the accepted string `1` by trailing characters is still
accepted. -/
theorem prefix_acceptance_of_literal_one :
    compileHir hirLit1 = some (chainM '1' 1) ∧
    ∀ (rest : List Char),
      (chainM '1' 1).compute (String.mk ('1' :: rest)) = SimResult.accept [(0, "1")] := by
  constructor
  · decide
  · intro rest
    have hc : List.take 1 (String.mk ('1' :: rest)).data = List.replicate 1 '1' := rfl
    rw [chainM_compute '1' 1 (by omega) (String.mk ('1' :: rest)), if_pos hc]
    rfl

theorem memT_add_transition (nfa : NFAutomata) (f t : Nat) (m : MatcherK) (j : Nat)
    (x : MatcherK × Nat) (h : MemT nfa j x) : MemT (nfa.add_transition f t m) j x := by
  obtain ⟨st, hst, hx⟩ := h
  unfold MemT
  rw [states_add_transition_get?]
  by_cases hf : f = j
  · exact ⟨_, by rw [if_pos hf, hst]; rfl, by simp [hx]⟩
  · exact ⟨st, by rw [if_neg hf, hst], hx⟩

theorem memT_add_transition_self (nfa : NFAutomata) (f t : Nat) (m : MatcherK)
    (hf : f < nfa.states.length) : MemT (nfa.add_transition f t m) f (m, t) := by
  unfold MemT
  rw [states_add_transition_get?, if_pos rfl, List.get?_eq_get hf]
  exact ⟨_, rfl, by simp⟩

theorem memT_mark_start (nfa : NFAutomata) (i g : Nat) (nm : Option String) (j : Nat)
    (x : MatcherK × Nat) (h : MemT nfa j x) :
    MemT (nfa.mark_start_capture_group i g nm) j x := by
  obtain ⟨st, hst, hx⟩ := h
  unfold MemT
  rw [states_mark_start_get?]
  by_cases hf : i = j
  · exact ⟨_, by rw [if_pos hf, hst]; rfl, by simp [hx]⟩
  · exact ⟨st, by rw [if_neg hf, hst], hx⟩

theorem memT_mark_end (nfa : NFAutomata) (i g : Nat) (nm : Option String) (j : Nat)
    (x : MatcherK × Nat) (h : MemT nfa j x) :
    MemT (nfa.mark_end_capture_group i g nm) j x := by
  obtain ⟨st, hst, hx⟩ := h
  unfold MemT
  rw [states_mark_end_get?]
  by_cases hf : i = j
  · exact ⟨_, by rw [if_pos hf, hst]; rfl, by simp [hx]⟩
  · exact ⟨st, by rw [if_neg hf, hst], hx⟩

theorem memT_mark_start_fold (l : List (Nat × Option String)) (nfa : NFAutomata) (f : Nat)
    (j : Nat) (x : MatcherK × Nat) (h : MemT nfa j x) :
    MemT (l.foldl (fun n g => n.mark_start_capture_group f g.1 g.2) nfa) j x := by
  induction l generalizing nfa with
  | nil => exact h
  | cons a l ih => exact ih _ (memT_mark_start _ _ _ _ _ _ h)

theorem memT_mark_end_fold (l : List (Nat × Option String)) (nfa : NFAutomata) (f : Nat)
    (j : Nat) (x : MatcherK × Nat) (h : MemT nfa j x) :
    MemT (l.foldl (fun n g => n.mark_end_capture_group f g.1 g.2) nfa) j x := by
  induction l generalizing nfa with
  | nil => exact h
  | cons a l ih => exact ih _ (memT_mark_end _ _ _ _ _ _ h)

theorem memT_add_transition_fold (base : Nat) (ms : List (MatcherK × Nat)) (nfa : NFAutomata)
    (f : Nat) (j : Nat) (x : MatcherK × Nat) (h : MemT nfa j x) :
    MemT (ms.foldl (fun n mt => n.add_transition f (mt.2 + base - 1) mt.1) nfa) j x := by
  induction ms generalizing nfa with
  | nil => exact h
  | cons a l ih => exact ih _ (memT_add_transition _ _ _ _ _ _ h)

theorem length_mark_start_fold (l : List (Nat × Option String)) (nfa : NFAutomata) (f : Nat) :
    (l.foldl (fun n g => n.mark_start_capture_group f g.1 g.2) nfa).states.length =
      nfa.states.length := by
  induction l generalizing nfa with
  | nil => rfl
  | cons a l ih => rw [List.foldl_cons, ih, length_mark_start]

theorem length_mark_end_fold (l : List (Nat × Option String)) (nfa : NFAutomata) (f : Nat) :
    (l.foldl (fun n g => n.mark_end_capture_group f g.1 g.2) nfa).states.length =
      nfa.states.length := by
  induction l generalizing nfa with
  | nil => rfl
  | cons a l ih => rw [List.foldl_cons, ih, length_mark_end]

theorem length_add_transition_fold (base : Nat) (ms : List (MatcherK × Nat)) (nfa : NFAutomata)
    (f : Nat) :
    (ms.foldl (fun n mt => n.add_transition f (mt.2 + base - 1) mt.1) nfa).states.length =
      nfa.states.length := by
  induction ms generalizing nfa with
  | nil => rfl
  | cons a l ih => rw [List.foldl_cons, ih, length_add_transition]

theorem memT_add_transition_fold_self (base : Nat) (ms : List (MatcherK × Nat))
    (nfa : NFAutomata) (f : Nat) (hf : f < nfa.states.length) (mt : MatcherK × Nat)
    (hmt : mt ∈ ms) :
    MemT (ms.foldl (fun n x => n.add_transition f (x.2 + base - 1) x.1) nfa) f
      (mt.1, mt.2 + base - 1) := by
  induction ms generalizing nfa with
  | nil => simp at hmt
  | cons a l ih =>
    rw [List.foldl_cons]
    rcases List.mem_cons.mp hmt with h | h
    · subst h
      exact memT_add_transition_fold base l _ f f _
        (memT_add_transition_self nfa f (mt.2 + base - 1) mt.1 hf)
    · exact ih _ (by rw [length_add_transition]; exact hf) h

theorem memT_appendCopyStates (base u : Nat) (l : List State) (start : Nat) (nfa : NFAutomata)
    (j : Nat) (x : MatcherK × Nat) (h : MemT nfa j x) :
    MemT (NFAutomata.appendCopyStates base u nfa l start) j x := by
  induction l generalizing nfa start with
  | nil => exact h
  | cons st rest ih =>
    unfold NFAutomata.appendCopyStates
    exact ih _ _ (memT_add_transition_fold _ _ _ _ _ _
      (memT_mark_end_fold _ _ _ _ _ (memT_mark_start_fold _ _ _ _ _ h)))

theorem length_appendCopyStates (base u : Nat) (l : List State) (start : Nat)
    (nfa : NFAutomata) :
    (NFAutomata.appendCopyStates base u nfa l start).states.length = nfa.states.length := by
  induction l generalizing nfa start with
  | nil => rfl
  | cons st rest ih =>
    unfold NFAutomata.appendCopyStates
    rw [ih, length_add_transition_fold, length_mark_end_fold, length_mark_start_fold]

theorem appendCopyStates_copies (base u : Nat) :
    ∀ (l : List State) (start : Nat) (nfa : NFAutomata) (k : Nat) (hk : k < l.length)
      (mt : MatcherK × Nat), mt ∈ (l.get ⟨k, hk⟩).matchers →
      (if (l.get ⟨k, hk⟩).is_initial then u else start + k + base - 1) < nfa.states.length →
      MemT (NFAutomata.appendCopyStates base u nfa l start)
        (if (l.get ⟨k, hk⟩).is_initial then u else start + k + base - 1)
        (mt.1, mt.2 + base - 1) := by
  intro l
  induction l with
  | nil => intro start nfa k hk; simp at hk
  | cons st rest ih =>
    intro start nfa k hk mt hmt hlt
    cases k with
    | zero =>
      have hget : (st :: rest).get ⟨0, hk⟩ = st := rfl
      rw [hget] at hmt hlt ⊢
      unfold NFAutomata.appendCopyStates
      apply memT_appendCopyStates
      have hz : start + 0 = start := rfl
      rw [hz] at hlt ⊢
      apply memT_add_transition_fold_self
      · rw [length_mark_end_fold, length_mark_start_fold]
        exact hlt
      · exact hmt
    | succ k =>
      have hget : (st :: rest).get ⟨k + 1, hk⟩ = rest.get ⟨k, by simpa using hk⟩ := rfl
      rw [hget] at hmt hlt ⊢
      unfold NFAutomata.appendCopyStates
      have harith : start + (k + 1) + base - 1 = (start + 1) + k + base - 1 := by omega
      rw [harith] at hlt ⊢
      apply ih (start + 1) _ k (by simpa using hk) mt hmt
      rw [length_add_transition_fold, length_mark_end_fold, length_mark_start_fold]
      exact hlt

/-- Claim C3 (amended): every transition `(from, to, matcher)` of `other` is
copied into `self` by `append` with the SOURCE endpoint translated by the
mapping `map(k) = union_state` if `other.states[k].is_initial` else
`k + base - 1`, but the TARGET endpoint shifted unconditionally to
`to + base - 1` (nfa.rs line 219); in particular a transition of `other`
whose target is `other`'s initial state ends at `initial + base - 1`, not at
`union_state`. -/
theorem append_copies_transitions (A other : NFAutomata) (u : Nat)
    (h2 : 2 ≤ other.states.length) (hu : u < A.states.length) :
    ∀ (k : Nat) (hk : k < other.states.length) (mt : MatcherK × Nat),
      mt ∈ (other.states.get ⟨k, hk⟩).matchers →
      MemT (A.append other u)
        (if (other.states.get ⟨k, hk⟩).is_initial then u else k + A.states.length - 1)
        (mt.1, mt.2 + A.states.length - 1) := by
  intro k hk mt hmt
  unfold NFAutomata.append
  rw [if_neg (by omega)]
  have hidx : (if (other.states.get ⟨k, hk⟩).is_initial then u
      else k + A.states.length - 1) =
      (if (other.states.get ⟨k, hk⟩).is_initial then u else 0 + k + A.states.length - 1) := by
    rw [Nat.zero_add]
  rw [hidx]
  apply appendCopyStates_copies A.states.length u other.states 0 _ k hk mt hmt
  have hlen : ((other.ending.foldl
      (fun n i => n.add_ending (i + A.states.length - 1))
      ((A.fill_state (other.states.length - 1)).remove_ending u)).states.length) =
      A.states.length + (other.states.length - 1) := by
    have hfold : ∀ (es : List Nat) (n : NFAutomata),
        (es.foldl (fun n i => n.add_ending (i + A.states.length - 1)) n).states.length =
        n.states.length := by
      intro es
      induction es with
      | nil => intro n; rfl
      | cons e es ihe => intro n; rw [List.foldl_cons, ihe, length_add_ending]
    rw [hfold, length_remove_ending, length_fill_state]
  rw [hlen]
  by_cases hini : (other.states.get ⟨k, hk⟩).is_initial
  · rw [if_pos hini]
    omega
  · rw [if_neg hini]
    omega

/-- Witness for the amended C3: appending `otherC3` (2 states, transition
`1 → 0` targeting its initial state) into the two-state literal automaton at
`union_state = 0` stores `(z, 1)` at state `2` — target `0 + 2 - 1 = 1`. -/
theorem append_copies_transitions_witness :
    2 ≤ otherC3.states.length ∧ 0 < (buildLiteral ['a']).states.length ∧
    MemT ((buildLiteral ['a']).append otherC3 0) 2 (.char 'z', 1) := by
  have h := append_copies_transitions (buildLiteral ['a']) otherC3 0 (by decide) (by decide)
    1 (by decide) (.char 'z', 0) (by decide)
  have hif : (if (otherC3.states.get ⟨1, by decide⟩).is_initial then 0
      else 1 + (buildLiteral ['a']).states.length - 1) = 2 := by decide
  rw [hif] at h
  exact ⟨by decide, by decide, h⟩

theorem mem_modifyIdx (l : List State) (i : Nat) (f : State → State) (s : State)
    (h : s ∈ modifyIdx l i f) : s ∈ l ∨ ∃ s0, s0 ∈ l ∧ s = f s0 := by
  induction l generalizing i with
  | nil => simp [modifyIdx] at h
  | cons a rest ih =>
    cases i with
    | zero =>
      rcases List.mem_cons.mp h with h1 | h1
      · exact Or.inr ⟨a, List.mem_cons_self a rest, h1⟩
      · exact Or.inl (List.mem_cons_of_mem a h1)
    | succ j =>
      rcases List.mem_cons.mp h with h1 | h1
      · exact Or.inl (h1 ▸ List.mem_cons_self a rest)
      · rcases ih j h1 with h2 | ⟨s0, hs0, hs⟩
        · exact Or.inl (List.mem_cons_of_mem a h2)
        · exact Or.inr ⟨s0, List.mem_cons_of_mem a hs0, hs⟩

theorem tgtValid_modifyIdx (l : List State) (i : Nat) (f : State → State) (L : Nat)
    (hT : ∀ s ∈ l, ∀ mt ∈ s.matchers, mt.2 < L)
    (hf : ∀ s, (∀ mt ∈ s.matchers, mt.2 < L) → ∀ mt ∈ (f s).matchers, mt.2 < L) :
    ∀ s ∈ modifyIdx l i f, ∀ mt ∈ s.matchers, mt.2 < L := by
  intro s hs
  rcases mem_modifyIdx l i f s hs with h | ⟨s0, hs0, rfl⟩
  · exact hT s h
  · exact hf s0 (hT s0 hs0)

theorem endValid_keep (A : NFAutomata) (states2 : List State) (ending2 : List Nat) (i : Nat)
    (f : State → State)
    (hst : ∀ j, states2.get? j = if i = j then (A.states.get? j).map f else A.states.get? j)
    (hf : ∀ s, (f s).is_ending = s.is_ending)
    (hend : ∀ k, k ∈ ending2 → k ∈ A.ending)
    (hE : ∀ k ∈ A.ending, ∃ st, A.states.get? k = some st ∧ st.is_ending = true) :
    ∀ k ∈ ending2, ∃ st, states2.get? k = some st ∧ st.is_ending = true := by
  intro k hk
  obtain ⟨st, hsome, hflag⟩ := hE k (hend k hk)
  rw [hst k]
  by_cases hik : i = k
  · exact ⟨f st, by rw [if_pos hik, hsome]; rfl, by rw [hf]; exact hflag⟩
  · exact ⟨st, by rw [if_neg hik, hsome], hflag⟩

theorem inv_set_initial (A : NFAutomata) (i : Nat) (h : BuildInv A) :
    BuildInv (A.set_initial i) := by
  obtain ⟨hE, hT, hI⟩ := h
  refine ⟨?_, ?_, ?_⟩
  · refine endValid_keep A _ _ i _ (fun j => states_set_initial_get? A i j)
      (fun s => rfl) (fun k hk => ?_) hE
    · rwa [ending_set_initial] at hk
  · unfold NFAutomata.set_initial
    by_cases hlt : i < A.states.length
    · rw [if_pos hlt]
      simp only [modifyIdx_length]
      exact tgtValid_modifyIdx A.states i _ A.states.length hT (fun s h mt hmt => h mt hmt)
    · rw [if_neg hlt]
      exact hT
  · unfold NFAutomata.set_initial
    by_cases hlt : i < A.states.length
    · rw [if_pos hlt]
      intro _
      simpa [modifyIdx_length] using hlt
    · rw [if_neg hlt]
      exact hI

theorem inv_add_ending (A : NFAutomata) (i : Nat) (h : BuildInv A) :
    BuildInv (A.add_ending i) := by
  obtain ⟨hE, hT, hI⟩ := h
  unfold NFAutomata.add_ending
  by_cases hlt : i < A.states.length
  · rw [if_pos hlt]
    refine ⟨?_, ?_, ?_⟩
    · intro k hk
      simp only [List.mem_append, List.mem_singleton] at hk
      rw [modifyIdx_get?]
      rcases hk with hk | rfl
      · obtain ⟨st, hsome, hflag⟩ := hE k hk
        by_cases hik : i = k
        · exact ⟨{ st with is_ending := true }, by rw [if_pos hik, hsome]; rfl, rfl⟩
        · exact ⟨st, by rw [if_neg hik, hsome], hflag⟩
      · rw [if_pos rfl, List.get?_eq_get hlt]
        exact ⟨_, rfl, rfl⟩
    · simp only [modifyIdx_length]
      exact tgtValid_modifyIdx A.states i _ A.states.length hT (fun s h mt hmt => h mt hmt)
    · intro hne
      simp only [modifyIdx_length]
      apply hI
      intro hcon
      rw [hcon] at hlt
      simp at hlt
  · rw [if_neg hlt]
    exact ⟨hE, hT, hI⟩

theorem inv_remove_ending (A : NFAutomata) (i : Nat) (h : BuildInv A) :
    BuildInv (A.remove_ending i) := by
  obtain ⟨hE, hT, hI⟩ := h
  unfold NFAutomata.remove_ending
  by_cases hlt : i < A.states.length
  · rw [if_pos hlt]
    refine ⟨?_, ?_, ?_⟩
    · intro k hk
      simp only [List.mem_filter] at hk
      obtain ⟨hk1, hk2⟩ := hk
      obtain ⟨st, hsome, hflag⟩ := hE k hk1
      rw [modifyIdx_get?]
      have hik : ¬ (i = k) := by
        intro hcon
        subst hcon
        simp at hk2
      exact ⟨st, by rw [if_neg hik, hsome], hflag⟩
    · simp only [modifyIdx_length]
      exact tgtValid_modifyIdx A.states i _ A.states.length hT (fun s h mt hmt => h mt hmt)
    · intro hne
      simp only [modifyIdx_length]
      apply hI
      intro hcon
      rw [hcon] at hlt
      simp at hlt
  · rw [if_neg hlt]
    exact ⟨hE, hT, hI⟩

theorem inv_add_transition (A : NFAutomata) (fs t : Nat) (m : MatcherK)
    (ht : t < A.states.length) (h : BuildInv A) : BuildInv (A.add_transition fs t m) := by
  obtain ⟨hE, hT, hI⟩ := h
  refine ⟨?_, ?_, ?_⟩
  · refine endValid_keep A _ _ fs _ (fun j => states_add_transition_get? A fs t m j)
      (fun s => rfl) (fun k hk => ?_) hE
    · rwa [ending_add_transition] at hk
  · unfold NFAutomata.add_transition
    by_cases hlt : fs < A.states.length
    · rw [if_pos hlt]
      simp only [modifyIdx_length]
      refine tgtValid_modifyIdx A.states fs _ A.states.length hT ?_
      intro s hvalid mt hmt
      simp only [List.mem_append, List.mem_singleton] at hmt
      rcases hmt with hmt | rfl
      · exact hvalid mt hmt
      · exact ht
    · rw [if_neg hlt]
      exact hT
  · unfold NFAutomata.add_transition
    by_cases hlt : fs < A.states.length
    · rw [if_pos hlt]
      intro _
      simp only [modifyIdx_length]
      apply hI
      intro hcon
      rw [hcon] at hlt
      simp at hlt
    · rw [if_neg hlt]
      exact hI

theorem inv_mark_start (A : NFAutomata) (i g : Nat) (nm : Option String) (h : BuildInv A) :
    BuildInv (A.mark_start_capture_group i g nm) := by
  obtain ⟨hE, hT, hI⟩ := h
  refine ⟨?_, ?_, ?_⟩
  · refine endValid_keep A _ _ i _ (fun j => states_mark_start_get? A i g nm j)
      (fun s => rfl) (fun k hk => ?_) hE
    · rwa [ending_mark_start] at hk
  · unfold NFAutomata.mark_start_capture_group
    by_cases hlt : i < A.states.length
    · rw [if_pos hlt]
      simp only [modifyIdx_length]
      exact tgtValid_modifyIdx A.states i _ A.states.length hT (fun s h mt hmt => h mt hmt)
    · rw [if_neg hlt]
      exact hT
  · unfold NFAutomata.mark_start_capture_group
    by_cases hlt : i < A.states.length
    · rw [if_pos hlt]
      intro _
      simp only [modifyIdx_length]
      apply hI
      intro hcon
      rw [hcon] at hlt
      simp at hlt
    · rw [if_neg hlt]
      exact hI

theorem inv_mark_end (A : NFAutomata) (i g : Nat) (nm : Option String) (h : BuildInv A) :
    BuildInv (A.mark_end_capture_group i g nm) := by
  obtain ⟨hE, hT, hI⟩ := h
  refine ⟨?_, ?_, ?_⟩
  · refine endValid_keep A _ _ i _ (fun j => states_mark_end_get? A i g nm j)
      (fun s => rfl) (fun k hk => ?_) hE
    · rwa [ending_mark_end] at hk
  · unfold NFAutomata.mark_end_capture_group
    by_cases hlt : i < A.states.length
    · rw [if_pos hlt]
      simp only [modifyIdx_length]
      exact tgtValid_modifyIdx A.states i _ A.states.length hT (fun s h mt hmt => h mt hmt)
    · rw [if_neg hlt]
      exact hT
  · unfold NFAutomata.mark_end_capture_group
    by_cases hlt : i < A.states.length
    · rw [if_pos hlt]
      intro _
      simp only [modifyIdx_length]
      apply hI
      intro hcon
      rw [hcon] at hlt
      simp at hlt
    · rw [if_neg hlt]
      exact hI

theorem inv_fill_state (A : NFAutomata) (n : Nat) (h : BuildInv A) (hne : A.states ≠ []) :
    BuildInv (A.fill_state n) := by
  obtain ⟨hE, hT, hI⟩ := h
  refine ⟨?_, ?_, ?_⟩
  · intro k hk
    rw [ending_fill_state] at hk
    obtain ⟨st, hsome, hflag⟩ := hE k hk
    obtain ⟨hlt, _⟩ := List.get?_eq_some.mp hsome
    rw [states_fill_state_get?, if_pos hlt]
    exact ⟨st, hsome, hflag⟩
  · intro s hs mt hmt
    unfold NFAutomata.fill_state at hs ⊢
    simp only [List.length_append, List.length_replicate]
    rcases List.mem_append.mp hs with hs | hs
    · have := hT s hs mt hmt
      omega
    · have hcs := List.eq_of_mem_replicate hs
      subst hcs
      simp [create_state] at hmt
  · intro _
    rw [length_fill_state, initial_fill_state]
    have := hI hne
    omega

theorem inv_new_fill (n : Nat) : BuildInv (NFAutomata.new.fill_state n) := by
  refine ⟨?_, ?_, ?_⟩
  · intro k hk
    simp [NFAutomata.new, NFAutomata.fill_state] at hk
  · intro s hs mt hmt
    simp only [NFAutomata.new, NFAutomata.fill_state, List.nil_append] at hs
    have hcs := List.eq_of_mem_replicate hs
    subst hcs
    simp [create_state] at hmt
  · intro hne
    simp only [NFAutomata.new, NFAutomata.fill_state, List.nil_append] at hne ⊢
    simp only [List.length_replicate]
    rcases n with _ | n
    · simp at hne
    · omega

theorem inv_add_ending_fold (base : Nat) (es : List Nat) (nfa : NFAutomata)
    (h : BuildInv nfa) :
    BuildInv (es.foldl (fun n i => n.add_ending (i + base - 1)) nfa) := by
  induction es generalizing nfa with
  | nil => exact h
  | cons e es ih => exact ih _ (inv_add_ending _ _ h)

theorem inv_mark_start_fold (l : List (Nat × Option String)) (nfa : NFAutomata) (f : Nat)
    (h : BuildInv nfa) :
    BuildInv (l.foldl (fun n g => n.mark_start_capture_group f g.1 g.2) nfa) := by
  induction l generalizing nfa with
  | nil => exact h
  | cons a l ih => exact ih _ (inv_mark_start _ _ _ _ h)

theorem inv_mark_end_fold (l : List (Nat × Option String)) (nfa : NFAutomata) (f : Nat)
    (h : BuildInv nfa) :
    BuildInv (l.foldl (fun n g => n.mark_end_capture_group f g.1 g.2) nfa) := by
  induction l generalizing nfa with
  | nil => exact h
  | cons a l ih => exact ih _ (inv_mark_end _ _ _ _ h)

theorem inv_add_transition_fold (base : Nat) (ms : List (MatcherK × Nat)) (nfa : NFAutomata)
    (f : Nat) (h : BuildInv nfa)
    (hts : ∀ mt ∈ ms, mt.2 + base - 1 < nfa.states.length) :
    BuildInv (ms.foldl (fun n mt => n.add_transition f (mt.2 + base - 1) mt.1) nfa) := by
  induction ms generalizing nfa with
  | nil => exact h
  | cons a l ih =>
    rw [List.foldl_cons]
    refine ih _ (inv_add_transition _ _ _ _ (hts a (by simp)) h) ?_
    intro mt hmt
    rw [length_add_transition]
    exact hts mt (List.mem_cons_of_mem a hmt)

theorem inv_appendCopyStates (base u : Nat) (l : List State) (start : Nat) (nfa : NFAutomata)
    (h : BuildInv nfa)
    (hts : ∀ st ∈ l, ∀ mt ∈ st.matchers, mt.2 + base - 1 < nfa.states.length) :
    BuildInv (NFAutomata.appendCopyStates base u nfa l start) := by
  induction l generalizing nfa start with
  | nil => exact h
  | cons st rest ih =>
    unfold NFAutomata.appendCopyStates
    refine ih _ _ ?_ ?_
    · refine inv_add_transition_fold base _ _ _ ?_ ?_
      · exact inv_mark_end_fold _ _ _ (inv_mark_start_fold _ _ _ h)
      · intro mt hmt
        rw [length_mark_end_fold, length_mark_start_fold]
        exact hts st (by simp) mt hmt
    · intro s hs mt hmt
      rw [length_add_transition_fold, length_mark_end_fold, length_mark_start_fold]
      exact hts s (List.mem_cons_of_mem st hs) mt hmt

theorem ne_nil_append (A B : NFAutomata) (u : Nat) (hne : A.states ≠ []) :
    (A.append B u).states ≠ [] := by
  unfold NFAutomata.append
  by_cases hsz : B.states.length < 2
  · rw [if_pos hsz]
    exact hne
  · rw [if_neg hsz]
    have hlen : (NFAutomata.appendCopyStates A.states.length u
        (B.ending.foldl (fun n i => n.add_ending (i + A.states.length - 1))
          ((A.fill_state (B.states.length - 1)).remove_ending u)) B.states 0).states.length =
        A.states.length + (B.states.length - 1) := by
      rw [length_appendCopyStates]
      have hfold : ∀ (es : List Nat) (n : NFAutomata),
          (es.foldl (fun n i => n.add_ending (i + A.states.length - 1)) n).states.length =
          n.states.length := by
        intro es
        induction es with
        | nil => intro n; rfl
        | cons e es ihe => intro n; rw [List.foldl_cons, ihe, length_add_ending]
      rw [hfold, length_remove_ending, length_fill_state]
    intro hcon
    rw [hcon] at hlen
    simp at hlen
    have : A.states.length ≠ 0 := fun hz => hne (List.length_eq_zero.mp hz)
    omega

theorem inv_append (A B : NFAutomata) (u : Nat) (hA : BuildInv A) (hne : A.states ≠ [])
    (hB : BuildInv B) : BuildInv (A.append B u) := by
  unfold NFAutomata.append
  by_cases hsz : B.states.length < 2
  · rw [if_pos hsz]
    exact hA
  · rw [if_neg hsz]
    have hbase : 0 < A.states.length := List.length_pos.mpr hne
    refine inv_appendCopyStates _ _ _ _ _ ?_ ?_
    · exact inv_add_ending_fold _ _ _
        (inv_remove_ending _ _ (inv_fill_state _ _ hA hne))
    · intro st hst mt hmt
      have hfold : ∀ (es : List Nat) (n : NFAutomata),
          (es.foldl (fun n i => n.add_ending (i + A.states.length - 1)) n).states.length =
          n.states.length := by
        intro es
        induction es with
        | nil => intro n; rfl
        | cons e es ihe => intro n; rw [List.foldl_cons, ihe, length_add_ending]
      rw [hfold, length_remove_ending, length_fill_state]
      have ht := hB.2.1 st hst mt hmt
      omega

theorem inv_mark_end_fold2 (es : List Nat) (nfa : NFAutomata) (g : Nat) (nm : Option String)
    (h : BuildInv nfa) :
    BuildInv (es.foldl (fun n i => n.mark_end_capture_group i g nm) nfa) := by
  induction es generalizing nfa with
  | nil => exact h
  | cons e es ih => exact ih _ (inv_mark_end _ _ _ _ h)

theorem inv_mark_capture_group (A : NFAutomata) (g : Nat) (nm : Option String)
    (h : BuildInv A) : BuildInv (A.mark_capture_group g nm) := by
  unfold NFAutomata.mark_capture_group
  exact inv_mark_end_fold2 _ _ _ _ (inv_mark_start _ _ _ _ h)

theorem mem_of_getLast?_eq (l : List Nat) (a : Nat) (h : l.getLast? = some a) : a ∈ l := by
  obtain ⟨hne, rfl⟩ := List.mem_getLast?_eq_getLast (l := l) (x := a) h
  exact List.getLast_mem hne

theorem inv_dropLast_ending (A : NFAutomata) (h : BuildInv A) :
    BuildInv { A with ending := A.ending.dropLast } := by
  obtain ⟨hE, hT, hI⟩ := h
  exact ⟨fun k hk => hE k (List.dropLast_subset _ hk), hT, hI⟩

theorem inv_litFold (cs : List Char) :
    ∀ (nfa : NFAutomata) (i : Nat), BuildInv nfa → i + cs.length < nfa.states.length →
    BuildInv (litFold nfa cs i) ∧ (litFold nfa cs i).states.length = nfa.states.length := by
  induction cs with
  | nil => intro nfa i h _; exact ⟨h, rfl⟩
  | cons c cs ih =>
    intro nfa i h hlen
    unfold litFold
    have h1 : BuildInv (nfa.add_char_transition i (i + 1) c) := by
      unfold NFAutomata.add_char_transition
      refine inv_add_transition _ _ _ _ ?_ h
      simp at hlen
      omega
    have hl1 : (nfa.add_char_transition i (i + 1) c).states.length = nfa.states.length :=
      length_add_transition _ _ _ _
    obtain ⟨h2, h3⟩ := ih (nfa.add_char_transition i (i + 1) c) (i + 1) h1
      (by rw [hl1]; simp at hlen; omega)
    exact ⟨h2, by rw [h3, hl1]⟩

theorem inv_buildLiteral (s : List Char) :
    BuildInv (buildLiteral s) ∧ (buildLiteral s).states ≠ [] := by
  unfold buildLiteral NFAutomata.declare_state
  have h0 : BuildInv (((NFAutomata.new.fill_state (s.length + 1)).set_initial 0).add_ending
      s.length) :=
    inv_add_ending _ _ (inv_set_initial _ _ (inv_new_fill _))
  have hlen : ((((NFAutomata.new.fill_state (s.length + 1)).set_initial 0).add_ending
      s.length)).states.length = s.length + 1 := by
    rw [length_add_ending, length_set_initial, length_fill_state]
    simp [NFAutomata.new]
  obtain ⟨h1, h2⟩ := inv_litFold s _ 0 h0 (by omega)
  refine ⟨h1, ?_⟩
  intro hcon
  rw [hcon] at h2
  simp at h2
  omega

theorem inv_classFold (rs : List (Char × Char)) :
    ∀ (nfa : NFAutomata) (i : Nat), BuildInv nfa → nfa.states.length = i + 1 →
    BuildInv (classFold nfa rs i) ∧
      (classFold nfa rs i).states.length = i + 1 + rs.length := by
  induction rs with
  | nil => intro nfa i h hlen; exact ⟨h, by unfold classFold; rw [hlen]; simp⟩
  | cons r rs ih =>
    intro nfa i h hlen
    unfold classFold
    have hne : nfa.states ≠ [] := by
      intro hcon
      rw [hcon] at hlen
      simp at hlen
    have h1 : BuildInv ((nfa.fill_state 1).add_transition i (i + 1) (.classUnicode r.1 r.2)) := by
      refine inv_add_transition _ _ _ _ ?_ (inv_fill_state _ _ h hne)
      rw [length_fill_state, hlen]
      omega
    have hl1 : ((nfa.fill_state 1).add_transition i (i + 1)
        (.classUnicode r.1 r.2)).states.length = i + 2 := by
      rw [length_add_transition, length_fill_state, hlen]
    obtain ⟨h2, h3⟩ := ih _ (i + 1) h1 hl1
    refine ⟨h2, by rw [h3]; simp; omega⟩

theorem inv_buildClass (rs : List (Char × Char)) :
    BuildInv (buildClass rs) ∧ (buildClass rs).states ≠ [] := by
  unfold buildClass
  have h0 : BuildInv ((NFAutomata.new.fill_state 1).set_initial 0) :=
    inv_set_initial _ _ (inv_new_fill 1)
  have hl0 : ((NFAutomata.new.fill_state 1).set_initial 0).states.length = 0 + 1 := by
    rw [length_set_initial, length_fill_state]
    simp [NFAutomata.new]
  obtain ⟨h1, h2⟩ := inv_classFold rs _ 0 h0 hl0
  refine ⟨inv_add_ending _ _ h1, ?_⟩
  intro hcon
  have := length_add_ending (classFold ((NFAutomata.new.fill_state 1).set_initial 0) rs 0)
    ((classFold ((NFAutomata.new.fill_state 1).set_initial 0) rs 0).states.length - 1)
  rw [hcon] at this
  simp at this
  omega

theorem inv_altAppendFold (cs : List NFAutomata) :
    ∀ (nfa : NFAutomata), BuildInv nfa → nfa.states ≠ [] → (∀ c ∈ cs, BuildInv c) →
    BuildInv (altAppendFold nfa cs) ∧ (altAppendFold nfa cs).states ≠ [] := by
  induction cs with
  | nil => intro nfa h hne _; exact ⟨h, hne⟩
  | cons c cs ih =>
    intro nfa h hne hc
    unfold altAppendFold
    exact ih _ (inv_append _ _ _ h hne (hc c (by simp))) (ne_nil_append _ _ _ hne)
      (fun x hx => hc x (List.mem_cons_of_mem c hx))

theorem inv_altEndFold (es : List Nat) :
    ∀ (nfa : NFAutomata) (re : Nat), BuildInv nfa → re < nfa.states.length →
    BuildInv (altEndFold nfa es re) ∧
      (altEndFold nfa es re).states.length = nfa.states.length := by
  induction es with
  | nil => intro nfa re h _; exact ⟨h, rfl⟩
  | cons e es ih =>
    intro nfa re h hre
    unfold altEndFold
    have h1 : BuildInv ((nfa.add_epsilon_transition e re).remove_ending e) := by
      refine inv_remove_ending _ _ ?_
      unfold NFAutomata.add_epsilon_transition
      exact inv_add_transition _ _ _ _ hre h
    have hl1 : ((nfa.add_epsilon_transition e re).remove_ending e).states.length =
        nfa.states.length := by
      rw [length_remove_ending]
      exact length_add_transition _ _ _ _
    obtain ⟨h2, h3⟩ := ih _ re h1 (by rw [hl1]; exact hre)
    exact ⟨h2, by rw [h3, hl1]⟩

theorem inv_buildAlternation (cs : List NFAutomata) (hc : ∀ c ∈ cs, BuildInv c) :
    BuildInv (buildAlternation cs) ∧ (buildAlternation cs).states ≠ [] := by
  unfold buildAlternation
  have h0 : BuildInv ((NFAutomata.new.fill_state 1).set_initial 0) :=
    inv_set_initial _ _ (inv_new_fill 1)
  have hne0 : ((NFAutomata.new.fill_state 1).set_initial 0).states ≠ [] := by
    intro hcon
    have := length_set_initial (NFAutomata.new.fill_state 1) 0
    rw [hcon] at this
    simp [NFAutomata.new, length_fill_state] at this
  obtain ⟨h1, hne1⟩ := inv_altAppendFold cs _ h0 hne0 hc
  generalize hX : altAppendFold ((NFAutomata.new.fill_state 1).set_initial 0) cs = X at h1 hne1 ⊢
  have h2 : BuildInv (X.fill_state 1) := inv_fill_state _ _ h1 hne1
  have hlen2 : (X.fill_state 1).states.length = X.states.length + 1 := length_fill_state _ _
  have hre : (X.fill_state 1).states.length - 1 < (X.fill_state 1).states.length := by omega
  obtain ⟨h3, h4⟩ := inv_altEndFold (X.fill_state 1).ending (X.fill_state 1)
    ((X.fill_state 1).states.length - 1) h2 hre
  refine ⟨inv_add_ending _ _ h3, ?_⟩
  intro hcon
  have hl := length_add_ending (altEndFold (X.fill_state 1) (X.fill_state 1).ending
    ((X.fill_state 1).states.length - 1)) ((X.fill_state 1).states.length - 1)
  rw [hcon] at hl
  simp at hl
  omega

theorem ne_nil_remove_ending (A : NFAutomata) (i : Nat) (h : A.states ≠ []) :
    (A.remove_ending i).states ≠ [] := by
  intro hcon
  have hl := length_remove_ending A i
  rw [hcon] at hl
  simp at hl
  exact h (List.length_eq_zero.mp hl.symm)

theorem inv_concatFold (cs : List NFAutomata) :
    ∀ (nfa : NFAutomata), BuildInv nfa → nfa.states ≠ [] → (∀ c ∈ cs, BuildInv c) →
    ∀ out, concatFold nfa cs = some out → BuildInv out ∧ out.states ≠ [] := by
  induction cs with
  | nil =>
    intro nfa h hne _ out hout
    unfold concatFold at hout
    cases hout
    exact ⟨h, hne⟩
  | cons c cs ih =>
    intro nfa h hne hc out hout
    unfold concatFold at hout
    cases hlast : nfa.ending.getLast? with
    | none => rw [hlast] at hout; cases hout
    | some pe =>
      rw [hlast] at hout
      refine ih _ ?_ ?_ (fun x hx => hc x (List.mem_cons_of_mem c hx)) out hout
      · exact inv_append _ _ _
          (inv_remove_ending _ _ (inv_dropLast_ending _ h))
          (ne_nil_remove_ending _ _ hne) (hc c (by simp))
      · exact ne_nil_append _ _ _ (ne_nil_remove_ending _ _ hne)

theorem inv_buildConcat (cs : List NFAutomata) (hc : ∀ c ∈ cs, BuildInv c)
    (out : NFAutomata) (hout : buildConcat cs = some out) :
    BuildInv out ∧ out.states ≠ [] := by
  unfold buildConcat at hout
  refine inv_concatFold cs _ ?_ ?_ hc out hout
  · exact inv_add_ending _ _ (inv_set_initial _ _ (inv_new_fill 1))
  · intro hcon
    have hl := length_add_ending ((NFAutomata.new.fill_state 1).set_initial 0) 0
    rw [hcon] at hl
    simp [length_set_initial, length_fill_state, NFAutomata.new] at hl

theorem inv_repMinFold (sub : NFAutomata) (hsub : BuildInv sub) :
    ∀ (m : Nat) (nfa : NFAutomata), BuildInv nfa → nfa.states ≠ [] →
    ∀ out, repMinFold sub m nfa = some out → BuildInv out ∧ out.states ≠ [] := by
  intro m
  induction m with
  | zero =>
    intro nfa h hne out hout
    unfold repMinFold at hout
    cases hout
    exact ⟨h, hne⟩
  | succ m ih =>
    intro nfa h hne out hout
    unfold repMinFold at hout
    cases hlast : nfa.ending.getLast? with
    | none => rw [hlast] at hout; cases hout
    | some pe =>
      rw [hlast] at hout
      refine ih _ ?_ ?_ out hout
      · exact inv_append _ _ _
          (inv_remove_ending _ _ (inv_dropLast_ending _ h))
          (ne_nil_remove_ending _ _ hne) hsub
      · exact ne_nil_append _ _ _ (ne_nil_remove_ending _ _ hne)

theorem inv_repMaxFold (sub : NFAutomata) (hsub : BuildInv sub) :
    ∀ (m : Nat) (nfa : NFAutomata) (acc : List Nat), BuildInv nfa → nfa.states ≠ [] →
    ∀ out, repMaxFold sub m nfa acc = some out → BuildInv out.1 ∧ out.1.states ≠ [] := by
  intro m
  induction m with
  | zero =>
    intro nfa acc h hne out hout
    unfold repMaxFold at hout
    cases hout
    exact ⟨h, hne⟩
  | succ m ih =>
    intro nfa acc h hne out hout
    unfold repMaxFold at hout
    cases hlast : nfa.ending.getLast? with
    | none => rw [hlast] at hout; cases hout
    | some ce =>
      rw [hlast] at hout
      refine ih _ _ ?_ ?_ out hout
      · exact inv_append _ _ _
          (inv_remove_ending _ _ (inv_dropLast_ending _ h))
          (ne_nil_remove_ending _ _ hne) hsub
      · exact ne_nil_append _ _ _ (ne_nil_remove_ending _ _ hne)

theorem inv_repBypassFold (es : List Nat) :
    ∀ (nfa : NFAutomata), BuildInv nfa →
    ∀ out, repBypassFold nfa es = some out → BuildInv out ∧
      out.states.length = nfa.states.length := by
  induction es with
  | nil =>
    intro nfa h out hout
    unfold repBypassFold at hout
    cases hout
    exact ⟨h, rfl⟩
  | cons e es ih =>
    intro nfa h out hout
    unfold repBypassFold at hout
    cases hlast : nfa.ending.getLast? with
    | none => rw [hlast] at hout; cases hout
    | some lv =>
      rw [hlast] at hout
      have hlv : lv < nfa.states.length := by
        obtain ⟨st, hsome, _⟩ := h.1 lv (mem_of_getLast?_eq _ _ hlast)
        exact (List.get?_eq_some.mp hsome).1
      have h1 : BuildInv (nfa.add_epsilon_transition e lv) := by
        unfold NFAutomata.add_epsilon_transition
        exact inv_add_transition _ _ _ _ hlv h
      obtain ⟨h2, h3⟩ := ih _ h1 out hout
      exact ⟨h2, by rw [h3]; exact length_add_transition _ _ _ _⟩

theorem length_append_ge (A B : NFAutomata) (u : Nat) :
    A.states.length ≤ (A.append B u).states.length := by
  unfold NFAutomata.append
  by_cases hsz : B.states.length < 2
  · rw [if_pos hsz]
  · rw [if_neg hsz]
    rw [length_appendCopyStates]
    have hfold : ∀ (es : List Nat) (n : NFAutomata),
        (es.foldl (fun n i => n.add_ending (i + A.states.length - 1)) n).states.length =
        n.states.length := by
      intro es
      induction es with
      | nil => intro n; rfl
      | cons e es ihe => intro n; rw [List.foldl_cons, ihe, length_add_ending]
    rw [hfold, length_remove_ending, length_fill_state]
    omega

theorem lt_len_of_mem_ending (A : NFAutomata) (k : Nat) (h : BuildInv A) (hk : k ∈ A.ending) :
    k < A.states.length := by
  obtain ⟨st, hsome, _⟩ := h.1 k hk
  exact (List.get?_eq_some.mp hsome).1

theorem length_add_epsilon (A : NFAutomata) (f t : Nat) :
    (A.add_epsilon_transition f t).states.length = A.states.length := by
  unfold NFAutomata.add_epsilon_transition
  exact length_add_transition _ _ _ _

theorem inv_add_epsilon (A : NFAutomata) (f t : Nat) (ht : t < A.states.length)
    (h : BuildInv A) : BuildInv (A.add_epsilon_transition f t) := by
  unfold NFAutomata.add_epsilon_transition
  exact inv_add_transition _ _ _ _ ht h

theorem inv_buildRepetition (mn : Nat) (mx : Option Nat) (sub : NFAutomata)
    (hsub : BuildInv sub) (out : NFAutomata) (hout : buildRepetition mn mx sub = some out) :
    BuildInv out ∧ out.states ≠ [] := by
  unfold buildRepetition at hout
  simp only [Option.some_bind] at hout
  have h0 : BuildInv (((NFAutomata.new.fill_state 1).set_initial 0).add_ending 0) :=
    inv_add_ending _ _ (inv_set_initial _ _ (inv_new_fill 1))
  have hne0 : (((NFAutomata.new.fill_state 1).set_initial 0).add_ending 0).states ≠ [] := by
    decide
  cases hmin : repMinFold sub mn (((NFAutomata.new.fill_state 1).set_initial 0).add_ending 0) with
  | none => rw [hmin] at hout; cases hout
  | some n1 =>
    rw [hmin] at hout
    simp only [Option.some_bind] at hout
    obtain ⟨h1, hne1⟩ := inv_repMinFold sub hsub mn _ h0 hne0 n1 hmin
    cases mx with
    | some m =>
      simp only at hout
      cases hmax : repMaxFold sub (m - mn) n1 [] with
      | none => rw [hmax] at hout; cases hout
      | some p =>
        rw [hmax] at hout
        simp only [Option.some_bind] at hout
        obtain ⟨h2, hne2⟩ := inv_repMaxFold sub hsub (m - mn) n1 [] h1 hne1 p hmax
        obtain ⟨h3, hlen3⟩ := inv_repBypassFold p.2 p.1 h2 out hout
        refine ⟨h3, ?_⟩
        intro hcon
        rw [hcon] at hlen3
        simp at hlen3
        exact hne2 (List.length_eq_zero.mp hlen3.symm)
    | none =>
      cases hle : n1.ending.getLast? with
      | none => rw [hle] at hout; cases hout
      | some le =>
        rw [hle] at hout
        simp only at hout
        generalize hN2 : (({ n1 with ending := n1.ending.dropLast }).remove_ending le).append
          sub le = N2 at hout
        have hinvN2 : BuildInv N2 := by
          rw [← hN2]
          exact inv_append _ _ _ (inv_remove_ending _ _ (inv_dropLast_ending _ h1))
            (ne_nil_remove_ending _ _ hne1) hsub
        have hlenN2 : n1.states.length ≤ N2.states.length := by
          rw [← hN2]
          have hstep : (({ n1 with ending := n1.ending.dropLast }).remove_ending
              le).states.length = n1.states.length := length_remove_ending _ _
          calc n1.states.length =
              (({ n1 with ending := n1.ending.dropLast }).remove_ending le).states.length :=
                hstep.symm
          _ ≤ _ := length_append_ge _ _ _
        cases hle2 : N2.ending.getLast? with
        | none => rw [hle2] at hout; cases hout
        | some le2 =>
          rw [hle2] at hout
          simp only [Option.some.injEq] at hout
          subst hout
          have hle_lt : le < n1.states.length :=
            lt_len_of_mem_ending n1 le h1 (mem_of_getLast?_eq _ _ hle)
          have hle2_lt : le2 < N2.states.length :=
            lt_len_of_mem_ending N2 le2 hinvN2 (mem_of_getLast?_eq _ _ hle2)
          have hinv3 : BuildInv (({ N2 with ending := N2.ending.dropLast }).fill_state 1) := by
            refine inv_fill_state _ _ (inv_dropLast_ending _ hinvN2) ?_
            intro hcon
            have : N2.states = [] := hcon
            rw [this] at hle2_lt
            simp at hle2_lt
          have hlen3 : (({ N2 with ending := N2.ending.dropLast }).fill_state
              1).states.length = N2.states.length + 1 := length_fill_state _ _
          have hfin : BuildInv ((((({ N2 with ending := N2.ending.dropLast }).fill_state
              1).add_epsilon_transition le2 le).add_epsilon_transition le2
              ((({ N2 with ending := N2.ending.dropLast }).fill_state
                1).states.length - 1)).add_epsilon_transition le le2) := by
            refine inv_add_epsilon _ _ _ ?_ (inv_add_epsilon _ _ _ ?_
              (inv_add_epsilon _ _ _ ?_ hinv3))
            · rw [length_add_epsilon, length_add_epsilon, hlen3]
              omega
            · rw [length_add_epsilon, hlen3]
              omega
            · rw [hlen3]
              omega
          refine ⟨inv_add_ending _ _ hfin, ?_⟩
          intro hcon
          have hlc := congrArg List.length hcon
          rw [length_add_ending, length_add_epsilon, length_add_epsilon,
            length_add_epsilon, hlen3] at hlc
          simp at hlc

theorem inv_new : BuildInv NFAutomata.new := by
  refine ⟨?_, ?_, ?_⟩
  · intro k hk
    simp [NFAutomata.new] at hk
  · intro s hs
    simp [NFAutomata.new] at hs
  · intro hne
    simp [NFAutomata.new] at hne

theorem astChildren_mem_build (xs : List Hir) (cs : List NFAutomata)
    (hcs : astChildren xs = some cs) (c : NFAutomata) (hc : c ∈ cs) :
    ∃ x ∈ xs, astToNfa x = some c := by
  induction xs generalizing cs with
  | nil =>
    rw [astChildren] at hcs
    injection hcs with h
    subst h
    cases hc
  | cons x xs ih =>
    rw [astChildren] at hcs
    cases ha : astToNfa x with
    | none => rw [ha] at hcs; cases hcs
    | some a =>
      rw [ha] at hcs
      simp only [Option.some_bind] at hcs
      cases hrest : astChildren xs with
      | none => rw [hrest] at hcs; cases hcs
      | some as =>
        rw [hrest] at hcs
        simp only [Option.map_some'] at hcs
        injection hcs with h
        subst h
        rcases List.mem_cons.mp hc with hca | hcas
        · exact ⟨x, List.mem_cons_self x xs, hca ▸ ha⟩
        · obtain ⟨y, hy, hya⟩ := ih as hrest hcas
          exact ⟨y, List.mem_cons_of_mem x hy, hya⟩

theorem build_inv_le (n : Nat) : ∀ (h : Hir), sizeOf h ≤ n →
    ∀ A, astToNfa h = some A → BuildInv A := by
  induction n with
  | zero =>
    intro h hle
    exfalso
    have hpos : 0 < sizeOf h := by
      cases h <;> simp_arith
    omega
  | succ n ihn =>
    intro h hle A hA
    cases h with
    | empty =>
      rw [astToNfa] at hA
      injection hA with h
      subst h
      exact inv_new
    | literal s =>
      rw [astToNfa] at hA
      injection hA with h
      subst h
      exact (inv_buildLiteral s).1
    | classU rs =>
      rw [astToNfa] at hA
      injection hA with h
      subst h
      exact (inv_buildClass rs).1
    | alternation xs =>
      rw [astToNfa] at hA
      cases hcs : astChildren xs with
      | none => rw [hcs] at hA; cases hA
      | some cs =>
        rw [hcs] at hA
        simp only [Option.map_some'] at hA
        injection hA with h
        subst h
        refine (inv_buildAlternation cs ?_).1
        intro c hcmem
        obtain ⟨x, hx, hxa⟩ := astChildren_mem_build xs cs hcs c hcmem
        have hsx : sizeOf x < sizeOf xs := List.sizeOf_lt_of_mem hx
        have hxs : sizeOf xs ≤ n := by
          simp only [Hir.alternation.sizeOf_spec] at hle
          omega
        exact ihn x (by omega) c hxa
    | concat xs =>
      rw [astToNfa] at hA
      cases hcs : astChildren xs with
      | none => rw [hcs] at hA; cases hA
      | some cs =>
        rw [hcs] at hA
        simp only [Option.some_bind] at hA
        refine (inv_buildConcat cs ?_ A hA).1
        intro c hcmem
        obtain ⟨x, hx, hxa⟩ := astChildren_mem_build xs cs hcs c hcmem
        have hsx : sizeOf x < sizeOf xs := List.sizeOf_lt_of_mem hx
        have hxs : sizeOf xs ≤ n := by
          simp only [Hir.concat.sizeOf_spec] at hle
          omega
        exact ihn x (by omega) c hxa
    | repetition mn mx sub =>
      rw [astToNfa] at hA
      cases hs : astToNfa sub with
      | none => rw [hs] at hA; cases hA
      | some s =>
        rw [hs] at hA
        simp only [Option.some_bind] at hA
        have hss : sizeOf sub ≤ n := by
          simp only [Hir.repetition.sizeOf_spec] at hle
          have hmx : 0 < sizeOf mx := by
            cases mx <;> simp_arith
          omega
        exact (inv_buildRepetition mn mx s (ihn sub hss s hs) A hA).1
    | capture idx nm sub =>
      rw [astToNfa] at hA
      cases hs : astToNfa sub with
      | none => rw [hs] at hA; cases hA
      | some s =>
        rw [hs] at hA
        simp only [Option.map_some'] at hA
        injection hA with h
        subst h
        have hss : sizeOf sub ≤ n := by
          simp only [Hir.capture.sizeOf_spec] at hle
          have hnm : 0 < sizeOf nm := by
            cases nm <;> simp_arith
          omega
        exact inv_mark_capture_group s idx nm (ihn sub hss s hs)

theorem build_inv (h : Hir) (A : NFAutomata) (hA : astToNfa h = some A) :
    BuildInv A :=
  build_inv_le (sizeOf h) h (Nat.le_refl _) A hA

/-- Claim C2 (amended): for every automaton produced by the builder's
`astToNfa` over any IR tree (Repetition nodes included), every index in the
`ending` vector points to a valid state whose `is_ending` flag is set.  The
converse direction of the original claim — that every state with the flag set
appears in the ending vector — is refuted by
`ending_bijection_counterexample`. -/
theorem ending_indices_flagged (h : Hir) (A : NFAutomata)
    (hA : astToNfa h = some A) (k : Nat) (hk : k ∈ A.ending) :
    ∃ st, A.states.get? k = some st ∧ st.is_ending = true :=
  (build_inv h A hA).1 k hk

theorem ending_indices_flagged_witness :
    astToNfa hirLit1 = some (buildLiteral ['1']) ∧
    1 ∈ (buildLiteral ['1']).ending ∧
    (∃ st, (buildLiteral ['1']).states.get? 1 = some st ∧ st.is_ending = true) :=
  ⟨rfl, by decide, ending_indices_flagged hirLit1 (buildLiteral ['1']) rfl 1 (by decide)⟩

theorem one_shiftLeft_eq (g : Nat) : (1 <<< g) = 2 ^ g := by
  rw [Nat.shiftLeft_eq, one_mul]

theorem bit_and_ne_iff (x g : Nat) : (x &&& (1 <<< g) ≠ 0) ↔ x.testBit g := by
  rw [one_shiftLeft_eq, Nat.and_two_pow]
  cases h : x.testBit g <;> simp [h]

theorem testBit_or_set (x g j : Nat) :
    (x ||| (1 <<< g)).testBit j = (x.testBit j || decide (g = j)) := by
  rw [one_shiftLeft_eq, Nat.testBit_or, Nat.testBit_two_pow]

theorem testBit_xor_clear (x g j : Nat) :
    (x ^^^ (1 <<< g)).testBit j = (xor (x.testBit j) (decide (g = j))) := by
  rw [one_shiftLeft_eq, Nat.testBit_xor, Nat.testBit_two_pow]

theorem gmHas_orInsert_self (gm : GroupMap) (k : Nat) (v : CaptureGroupRange) :
    gmHas (gmOrInsert gm k v) k := by
  unfold gmHas gmOrInsert gmFind
  cases h : List.find? (fun e => e.1 == k) gm with
  | some e => simp [h]
  | none => simp [List.find?_append, h]

theorem gmHas_orInsert_mono (gm : GroupMap) (k : Nat) (v : CaptureGroupRange) (g : Nat)
    (h : gmHas gm g) : gmHas (gmOrInsert gm k v) g := by
  unfold gmHas gmOrInsert gmFind at *
  cases hk : List.find? (fun e => e.1 == k) gm with
  | some e => exact h
  | none =>
    cases hg : List.find? (fun e => e.1 == g) gm with
    | none => rw [hg] at h; simp at h
    | some e => simp [List.find?_append, hg]

theorem gmHas_setRight (gm : GroupMap) (k i g : Nat) :
    gmHas (gmSetRight gm k i) g ↔ gmHas gm g := by
  unfold gmHas gmSetRight gmFind
  have hkey : ∀ e : Nat × CaptureGroupRange,
      (if e.1 == k then (e.1, { e.2 with right := some i }) else e).1 = e.1 := by
    intro e
    by_cases hek : (e.1 == k) = true
    · rw [if_pos hek]
    · rw [if_neg hek]
  rw [List.find?_map]
  have hpred : ((fun e : Nat × CaptureGroupRange => e.1 == g) ∘
      (fun e : Nat × CaptureGroupRange =>
        if e.1 == k then (e.1, { e.2 with right := some i }) else e)) =
      (fun e : Nat × CaptureGroupRange => e.1 == g) := by
    funext e
    simp only [Function.comp]
    rw [hkey e]
  rw [hpred]
  cases hg : List.find? (fun e : Nat × CaptureGroupRange => e.1 == g) gm <;> simp

theorem startGroups_cons (x : Nat × Option String) (sg : List (Nat × Option String))
    (i flag : Nat) (gm : GroupMap) (hx : x.1 < 64) :
    startGroups (x :: sg) i flag gm =
      startGroups sg i (flag ||| (1 <<< x.1))
        (gmOrInsert gm x.1 { left := i, right := none, name := x.2 }) := by
  unfold startGroups
  rw [List.foldl_cons]
  simp only [Option.some_bind]
  unfold shl1u64
  rw [if_pos hx]
  simp only [Option.map_some']

theorem startGroups_cons_big (x : Nat × Option String) (sg : List (Nat × Option String))
    (i flag : Nat) (gm : GroupMap) (hx : ¬ x.1 < 64) :
    startGroups (x :: sg) i flag gm = none := by
  unfold startGroups
  rw [List.foldl_cons]
  simp only [Option.some_bind]
  unfold shl1u64
  rw [if_neg hx]
  simp only [Option.map_none']
  induction sg with
  | nil => rfl
  | cons y sg ih =>
    rw [List.foldl_cons]
    simpa using ih

theorem startGroups_ok (i : Nat) (sg : List (Nat × Option String)) :
    ∀ (flag : Nat) (gm : GroupMap),
      (∀ g ∈ sg, g.1 < 64) →
      (∀ g, flag &&& (1 <<< g) ≠ 0 → gmHas gm g) →
      ∃ fl1 gm1, startGroups sg i flag gm = some (fl1, gm1) ∧
        (∀ g, fl1 &&& (1 <<< g) ≠ 0 → gmHas gm1 g) ∧
        (∀ g, gmHas gm g → gmHas gm1 g) := by
  induction sg with
  | nil =>
    intro flag gm _ h
    exact ⟨flag, gm, rfl, h, fun g hg => hg⟩
  | cons x sg ih =>
    intro flag gm hsmall h
    have hx : x.1 < 64 := hsmall x (List.mem_cons_self _ _)
    rw [startGroups_cons _ _ _ _ _ hx]
    have hstep : ∀ g, (flag ||| (1 <<< x.1)) &&& (1 <<< g) ≠ 0 →
        gmHas (gmOrInsert gm x.1 { left := i, right := none, name := x.2 }) g := by
      intro g hg
      rw [bit_and_ne_iff, testBit_or_set] at hg
      rcases Bool.or_eq_true_iff.mp hg with hgl | hgr
      · exact gmHas_orInsert_mono _ _ _ _ (h g ((bit_and_ne_iff flag g).mpr hgl))
      · have : x.1 = g := of_decide_eq_true hgr
        subst this
        exact gmHas_orInsert_self _ _ _
    obtain ⟨fl1, gm1, heq, hcov, hmono⟩ :=
      ih _ _ (fun g hg => hsmall g (List.mem_cons_of_mem _ hg)) hstep
    exact ⟨fl1, gm1, heq, hcov,
      fun g hg => hmono g (gmHas_orInsert_mono _ _ _ _ hg)⟩

theorem endGroups_ok (i : Nat) (eg : List (Nat × Option String)) :
    ∀ (flag : Nat) (gm : GroupMap) (cap : Nat),
      (∀ g ∈ eg, g.1 < 64) →
      (∀ g, flag &&& (1 <<< g) ≠ 0 → gmHas gm g) →
      ∃ fl2 gm2 cap2, endGroups eg i flag gm cap = some (fl2, gm2, cap2) ∧
        (∀ g, fl2 &&& (1 <<< g) ≠ 0 → flag &&& (1 <<< g) ≠ 0) ∧
        (∀ g, gmHas gm2 g ↔ gmHas gm g) := by
  induction eg with
  | nil =>
    intro flag gm cap _ h
    exact ⟨flag, gm, cap, rfl, fun g hg => hg, fun g => Iff.rfl⟩
  | cons x eg ih =>
    intro flag gm cap hsmall h
    have hx : x.1 < 64 := hsmall x (List.mem_cons_self _ _)
    have hsh : shl1u64 x.1 = some (1 <<< x.1) := by
      unfold shl1u64
      rw [if_pos hx]
    have hsmall2 : ∀ g ∈ eg, g.1 < 64 := fun g hg => hsmall g (List.mem_cons_of_mem _ hg)
    by_cases hb : (flag &&& (1 <<< x.1) != 0) = true
    · have hne : flag &&& (1 <<< x.1) ≠ 0 := bne_iff_ne.mp hb
      have hxbit : flag.testBit x.1 := (bit_and_ne_iff flag x.1).mp hne
      have hhas : gmHas gm x.1 := h x.1 hne
      obtain ⟨v, hv⟩ : ∃ v, gmFind gm x.1 = some v := by
        unfold gmHas at hhas
        exact Option.isSome_iff_exists.mp hhas
      have hstep : endGroups (x :: eg) i flag gm cap =
          endGroups eg i (flag ^^^ (1 <<< x.1)) (gmSetRight gm x.1 i)
            (cap &&& (1 <<< x.1)) := by
        unfold endGroups
        rw [List.foldl_cons]
        simp only [Option.some_bind]
        rw [hsh]
        simp only [Option.some_bind]
        rw [if_pos hb, hv]
      have hsubx : ∀ g, (flag ^^^ (1 <<< x.1)) &&& (1 <<< g) ≠ 0 →
          flag &&& (1 <<< g) ≠ 0 := by
        intro g hg
        rw [bit_and_ne_iff, testBit_xor_clear] at hg
        rw [bit_and_ne_iff]
        by_cases hgx : x.1 = g
        · subst hgx
          simp [hxbit] at hg
        · simp [hgx] at hg
          exact hg
      have hcov : ∀ g, (flag ^^^ (1 <<< x.1)) &&& (1 <<< g) ≠ 0 →
          gmHas (gmSetRight gm x.1 i) g := by
        intro g hg
        rw [gmHas_setRight]
        exact h g (hsubx g hg)
      obtain ⟨fl2, gm2, cap2, heq, hsub, hiff⟩ := ih _ _ _ hsmall2 hcov
      refine ⟨fl2, gm2, cap2, hstep.trans heq, ?_, ?_⟩
      · intro g hg
        exact hsubx g (hsub g hg)
      · intro g
        rw [hiff g, gmHas_setRight]
    · have hstep : endGroups (x :: eg) i flag gm cap = endGroups eg i flag gm cap := by
        unfold endGroups
        rw [List.foldl_cons]
        simp only [Option.some_bind]
        rw [hsh]
        simp only [Option.some_bind]
        rw [if_neg hb]
      obtain ⟨fl2, gm2, cap2, heq, hsub, hiff⟩ := ih _ _ _ hsmall2 h
      exact ⟨fl2, gm2, cap2, hstep.trans heq, hsub, hiff⟩


theorem expand_mem (input : List Char) (i : Nat) (mem : List Nat) (flag : Nat)
    (ms : List (MatcherK × Nat)) (f : Frame) (hf : f ∈ expand input i mem flag ms) :
    ∃ mt ∈ ms, f.state = mt.2 ∧ f.flag = flag ∧
      ((f.i = i ∧ f.mem = mem ++ [mt.2] ∧ mem.contains mt.2 = false) ∨
       (f.i = i + 1 ∧ f.mem = [] ∧ i < input.length)) := by
  unfold expand at hf
  obtain ⟨mt, hmt, hsome⟩ := List.mem_filterMap.mp hf
  obtain ⟨hmem, hpass⟩ := List.mem_filter.mp hmt
  refine ⟨mt, hmem, ?_⟩
  by_cases he : mt.1.isEpsilon = true
  · rw [if_pos he] at hsome
    by_cases hc : mem.contains mt.2 = true
    · rw [if_pos hc] at hsome
      cases hsome
    · rw [if_neg hc] at hsome
      injection hsome with h
      subst h
      exact ⟨rfl, rfl, Or.inl ⟨rfl, rfl, by simpa using hc⟩⟩
  · rw [if_neg he] at hsome
    injection hsome with h
    subst h
    refine ⟨rfl, rfl, Or.inr ⟨rfl, rfl, ?_⟩⟩
    by_cases hi : i < input.length
    · exact hi
    · rw [if_neg hi] at hpass
      exact absurd hpass he

theorem computeAux_cons_stx (A : NFAutomata) (input : List Char) (fuel : Nat)
    (fr : Frame) (rest : List Frame) (gm : GroupMap) (cap : Nat) (stx : State)
    (hstx : A.states.get? fr.state = some stx) :
    computeAux A input (fuel + 1) (fr :: rest) gm cap =
      match startGroups stx.start_group fr.i fr.flag gm with
      | none => .panic
      | some (flag1, gm1) =>
        match endGroups stx.end_group fr.i flag1 gm1 cap with
        | none => .panic
        | some (flag2, gm2, cap2) =>
          if stx.is_ending then .accept (buildCaptures input gm2)
          else computeAux A input fuel
            (expand input fr.i fr.mem flag2 stx.matchers ++ rest) gm2 cap2 := by
  rw [computeAux_cons, hstx]

theorem computeAux_sg_none (A : NFAutomata) (input : List Char) (fuel : Nat)
    (fr : Frame) (rest : List Frame) (gm : GroupMap) (cap : Nat) (stx : State)
    (hstx : A.states.get? fr.state = some stx)
    (hsg : startGroups stx.start_group fr.i fr.flag gm = none) :
    computeAux A input (fuel + 1) (fr :: rest) gm cap = .panic := by
  rw [computeAux_cons_stx A input fuel fr rest gm cap stx hstx, hsg]

theorem computeAux_cons2 (A : NFAutomata) (input : List Char) (fuel : Nat)
    (fr : Frame) (rest : List Frame) (gm : GroupMap) (cap : Nat) (stx : State)
    (fl1 : Nat) (gm1 : GroupMap) (hstx : A.states.get? fr.state = some stx)
    (hsg : startGroups stx.start_group fr.i fr.flag gm = some (fl1, gm1)) :
    computeAux A input (fuel + 1) (fr :: rest) gm cap =
      match endGroups stx.end_group fr.i fl1 gm1 cap with
      | none => .panic
      | some (flag2, gm2, cap2) =>
        if stx.is_ending then .accept (buildCaptures input gm2)
        else computeAux A input fuel
          (expand input fr.i fr.mem flag2 stx.matchers ++ rest) gm2 cap2 := by
  rw [computeAux_cons_stx A input fuel fr rest gm cap stx hstx, hsg]

theorem computeAux_ne_panic (A : NFAutomata) (input : List Char) (hT : TargetsValid A)
    (hG : GroupsSmall A) :
    ∀ (fuel : Nat) (st : List Frame) (gm : GroupMap) (cap : Nat),
      StatesOnStackValid A.states.length st →
      FlagsCovered gm st →
      computeAux A input fuel st gm cap ≠ .panic := by
  intro fuel
  induction fuel with
  | zero =>
    intro st gm cap _ _
    have h0 : computeAux A input 0 st gm cap = .fuelOut := rfl
    rw [h0]
    intro h
    cases h
  | succ fuel ih =>
    intro st gm cap hS hF
    cases st with
    | nil =>
      rw [computeAux_nil]
      intro h
      cases h
    | cons fr rest =>
      have hfr : fr.state < A.states.length := hS fr (List.mem_cons_self _ _)
      obtain ⟨stx, hstx⟩ : ∃ stx, A.states.get? fr.state = some stx :=
        ⟨_, List.get?_eq_get hfr⟩
      have hstxmem : stx ∈ A.states := List.get?_mem hstx
      have hsmallS : ∀ g ∈ stx.start_group, g.1 < 64 := (hG stx hstxmem).1
      have hsmallE : ∀ g ∈ stx.end_group, g.1 < 64 := (hG stx hstxmem).2
      have hcov0 : ∀ g, fr.flag &&& (1 <<< g) ≠ 0 → gmHas gm g :=
        hF fr (List.mem_cons_self _ _)
      obtain ⟨fl1, gm1, hsg, hcov1, hmono1⟩ :=
        startGroups_ok fr.i stx.start_group fr.flag gm hsmallS hcov0
      obtain ⟨fl2, gm2, cap2, heq, hsub, hiff⟩ :=
        endGroups_ok fr.i stx.end_group fl1 gm1 cap hsmallE hcov1
      rw [computeAux_cons2 A input fuel fr rest gm cap stx fl1 gm1 hstx hsg, heq]
      show (if stx.is_ending then SimResult.accept (buildCaptures input gm2)
            else computeAux A input fuel
              (expand input fr.i fr.mem fl2 stx.matchers ++ rest) gm2 cap2) ≠
          SimResult.panic
      by_cases hend : stx.is_ending = true
      · rw [if_pos hend]
        intro h
        cases h
      · rw [if_neg hend]
        refine ih (expand input fr.i fr.mem fl2 stx.matchers ++ rest) gm2 cap2 ?_ ?_
        · intro f hfm
          rcases List.mem_append.mp hfm with hfe | hfr2
          · obtain ⟨mt, hmt, hstate, _⟩ := expand_mem _ _ _ _ _ _ hfe
            rw [hstate]
            exact hT stx hstxmem mt hmt
          · exact hS f (List.mem_cons_of_mem _ hfr2)
        · intro f hfm g hg
          rcases List.mem_append.mp hfm with hfe | hfr2
          · obtain ⟨mt, hmt, _, hflag, _⟩ := expand_mem _ _ _ _ _ _ hfe
            rw [hflag] at hg
            exact (hiff g).mpr (hcov1 g (hsub g hg))
          · have hcf := hF f (List.mem_cons_of_mem _ hfr2) g hg
            exact (hiff g).mpr (hmono1 g hcf)

theorem compute_no_panic_of_wf (A : NFAutomata) (hI : A.initial < A.states.length)
    (hT : TargetsValid A) (hG : GroupsSmall A) (s : String) :
    A.compute s ≠ SimResult.panic := by
  unfold NFAutomata.compute
  apply computeAux_ne_panic A s.data hT hG
  · intro f hf
    have hfe : f = { i := 0, state := A.initial, mem := [], flag := 0 } :=
      List.mem_singleton.mp hf
    rw [hfe]
    exact hI
  · intro f hf g hg
    have hfe : f = { i := 0, state := A.initial, mem := [], flag := 0 } :=
      List.mem_singleton.mp hf
    rw [hfe] at hg
    simp [Nat.zero_and] at hg

/-- Counterexample to claim C7: the innermost group of a pattern with 64
nested captures compiles (through the builder and the implicit group 0) to an
automaton that is well-formed exactly as the claim demands — valid initial
index, every transition target in range — yet `compute` panics on every
input: processing the start marker of group 64 evaluates the source's
`1u64 << 64`, and the shift overflows the 64-bit `group_flag` width. -/
theorem group_flag_overflow_counterexample :
    compileHir hirBig =
      some (((buildLiteral ['a']).mark_capture_group 64 none).mark_capture_group 0 none) ∧
    (((buildLiteral ['a']).mark_capture_group 64 none).mark_capture_group 0 none).initial <
      (((buildLiteral ['a']).mark_capture_group 64 none).mark_capture_group
        0 none).states.length ∧
    TargetsValid
      (((buildLiteral ['a']).mark_capture_group 64 none).mark_capture_group 0 none) ∧
    (((buildLiteral ['a']).mark_capture_group 64 none).mark_capture_group
      0 none).compute "a" = SimResult.panic := by
  refine ⟨rfl, by decide, by unfold TargetsValid; decide, by decide⟩

/-- Claim C7 (amended): restricted to automata whose marked capture-group
indices all lie below 64 — the width of the `u64` `group_flag` — the original
statement holds: for every such automaton that is well-formed in the sense
the claim itself spells out (the initial index is valid and every transition
target is `< states.len()`) and every input string, `compute` never panics;
the state lookup at every popped frame succeeds, and the group-map lookup
performed when closing a group `g` succeeds whenever bit `g` of `group_flag`
is set.  Without the index bound the claim is refuted by
`group_flag_overflow_counterexample`: a compiled pattern with 65 capture
groups panics on the overflowing shift `1u64 << 64`. -/
theorem compute_never_panics (A : NFAutomata) (hI : A.initial < A.states.length)
    (hT : TargetsValid A) (hG : GroupsSmall A) (s : String) :
    A.compute s ≠ SimResult.panic :=
  compute_no_panic_of_wf A hI hT hG s

theorem compute_never_panics_witness :
    (buildLiteral ['1']).initial < (buildLiteral ['1']).states.length ∧
    TargetsValid (buildLiteral ['1']) ∧
    GroupsSmall (buildLiteral ['1']) ∧
    (buildLiteral ['1']).compute "2" ≠ SimResult.panic :=
  ⟨by decide, by unfold TargetsValid; decide, by unfold GroupsSmall; decide,
   compute_never_panics (buildLiteral ['1']) (by decide)
     (by unfold TargetsValid; decide) (by unfold GroupsSmall; decide) "2"⟩

theorem nodup_bounded_length_le (l : List Nat) (S : Nat) (hn : l.Nodup)
    (hb : ∀ x ∈ l, x < S) : l.length ≤ S := by
  have h1 : l.toFinset.card = l.length := List.toFinset_card_of_nodup hn
  have h2 : l.toFinset ⊆ Finset.range S := by
    intro x hx
    rw [Finset.mem_range]
    exact hb x (List.mem_toFinset.mp hx)
  have h3 := Finset.card_le_card h2
  rw [Finset.card_range] at h3
  omega

theorem stackW_cons (B L S : Nat) (f : Frame) (st : List Frame) :
    stackW B L S (f :: st) = B ^ frameMu L S f + stackW B L S st := by
  simp [stackW]

theorem stackW_append (B L S : Nat) (l1 l2 : List Frame) :
    stackW B L S (l1 ++ l2) = stackW B L S l1 + stackW B L S l2 := by
  simp [stackW]

theorem expand_child_mu (L S : Nat) (input : List Char) (hL : L = input.length)
    (fr : Frame) (flag : Nat) (ms : List (MatcherK × Nat)) (hfr : FrOK L S fr)
    (htv : ∀ mt ∈ ms, mt.2 < S) (f : Frame)
    (hf : f ∈ expand input fr.i fr.mem flag ms) :
    frameMu L S f < frameMu L S fr ∧ FrOK L S f := by
  obtain ⟨hiL, hnd, hbnd⟩ := hfr
  obtain ⟨mt, hmt, _, _, hcase⟩ := expand_mem _ _ _ _ _ _ hf
  rcases hcase with ⟨hfi, hfmem, hnc⟩ | ⟨hfi, hfmem, hlt⟩
  · have hnotin : mt.2 ∉ fr.mem := by
      intro hin
      have hc : fr.mem.contains mt.2 = true := List.elem_eq_true_of_mem hin
      rw [hc] at hnc
      cases hnc
    have hnd2 : f.mem.Nodup := by
      rw [hfmem]
      rw [List.nodup_append]
      exact ⟨hnd, List.nodup_singleton _, by
        intro a ha hb
        rw [List.mem_singleton] at hb
        exact hnotin (hb ▸ ha)⟩
    have hbnd2 : ∀ x ∈ f.mem, x < S := by
      rw [hfmem]
      intro x hx
      rcases List.mem_append.mp hx with hx1 | hx2
      · exact hbnd x hx1
      · rw [List.mem_singleton] at hx2
        exact hx2 ▸ htv mt hmt
    have hlen2 : f.mem.length ≤ S := nodup_bounded_length_le _ _ hnd2 hbnd2
    have hlenf : f.mem.length = fr.mem.length + 1 := by
      rw [hfmem, List.length_append]
      rfl
    refine ⟨?_, hfi ▸ hiL, hnd2, hbnd2⟩
    unfold frameMu
    rw [hfi, hlenf]
    have hgen : ∀ p : Nat, p + (S - (fr.mem.length + 1)) < p + (S - fr.mem.length) := by
      intro p
      omega
    exact hgen _
  · refine ⟨?_, by rw [hfi]; omega, by rw [hfmem]; exact List.nodup_nil, by
      rw [hfmem]
      intro x hx
      cases hx⟩
    unfold frameMu
    rw [hfi, hfmem]
    have hfrL : fr.i < L := hL ▸ hlt
    have key : (L - (fr.i + 1)) * (S + 1) + (S + 1) = (L - fr.i) * (S + 1) := by
      have h1 : L - (fr.i + 1) + 1 = L - fr.i := by omega
      calc (L - (fr.i + 1)) * (S + 1) + (S + 1)
          = (L - (fr.i + 1) + 1) * (S + 1) := by ring
        _ = (L - fr.i) * (S + 1) := by rw [h1]
    simp only [List.length_nil]
    omega

theorem expand_length_le (input : List Char) (i : Nat) (mem : List Nat) (flag : Nat)
    (ms : List (MatcherK × Nat)) : (expand input i mem flag ms).length ≤ ms.length :=
  le_trans (List.length_filterMap_le _ _) (List.length_filter_le _ _)

theorem matchers_le_totalTrans (A : NFAutomata) (stx : State) (h : stx ∈ A.states) :
    stx.matchers.length ≤ totalTrans A := by
  unfold totalTrans
  refine List.single_le_sum (fun x _ => Nat.zero_le x) _ ?_
  exact List.mem_map.mpr ⟨stx, h, rfl⟩

theorem stackW_children_lt (B L S : Nat) (hB : 2 ≤ B) (fr : Frame) (cs : List Frame)
    (hlen : cs.length + 2 ≤ B) (hmu : ∀ c ∈ cs, frameMu L S c < frameMu L S fr) :
    stackW B L S cs < B ^ frameMu L S fr := by
  cases hm : frameMu L S fr with
  | zero =>
    cases cs with
    | nil => simp [stackW]
    | cons c cs' =>
      have := hmu c (List.mem_cons_self _ _)
      omega
  | succ m =>
    have hbound : ∀ x ∈ cs.map (fun f => B ^ frameMu L S f), x ≤ B ^ m := by
      intro x hx
      obtain ⟨c, hc, hxe⟩ := List.mem_map.mp hx
      have hcm : frameMu L S c ≤ m := by
        have := hmu c hc
        omega
      rw [← hxe]
      exact Nat.pow_le_pow_right (by omega) hcm
    have hsum : stackW B L S cs ≤ cs.length * B ^ m := by
      unfold stackW
      have := List.sum_le_card_nsmul (cs.map (fun f => B ^ frameMu L S f)) (B ^ m) hbound
      rw [List.length_map] at this
      simpa using this
    have hlt : cs.length * B ^ m < B * B ^ m := by
      refine Nat.mul_lt_mul_of_lt_of_le (by omega) (Nat.le_refl _) ?_
      exact Nat.pos_pow_of_pos m (by omega)
    calc stackW B L S cs ≤ cs.length * B ^ m := hsum
      _ < B * B ^ m := hlt
      _ = B ^ (m + 1) := by rw [Nat.pow_succ, Nat.mul_comm]

theorem computeAux_ne_fuelOut (A : NFAutomata) (input : List Char) (hT : TargetsValid A) :
    ∀ (fuel : Nat) (st : List Frame) (gm : GroupMap) (cap : Nat),
      (∀ f ∈ st, FrOK input.length A.states.length f) →
      stackW (totalTrans A + 2) input.length A.states.length st < fuel →
      computeAux A input fuel st gm cap ≠ .fuelOut := by
  intro fuel
  induction fuel with
  | zero =>
    intro st gm cap _ hW
    exact absurd hW (Nat.not_lt_zero _)
  | succ fuel ih =>
    intro st gm cap hOK hW
    cases st with
    | nil =>
      rw [computeAux_nil]
      intro h
      cases h
    | cons fr rest =>
      cases hstx : A.states.get? fr.state with
      | none =>
        rw [computeAux_cons, hstx]
        intro h
        cases h
      | some stx =>
        have hstxmem : stx ∈ A.states := List.get?_mem hstx
        cases hsg : startGroups stx.start_group fr.i fr.flag gm with
        | none =>
          rw [computeAux_sg_none A input fuel fr rest gm cap stx hstx hsg]
          intro h
          cases h
        | some sgp =>
          obtain ⟨fl1, gm1⟩ := sgp
          rw [computeAux_cons2 A input fuel fr rest gm cap stx fl1 gm1 hstx hsg]
          cases heg : endGroups stx.end_group fr.i fl1 gm1 cap with
          | none =>
            intro h
            cases h
          | some trip =>
            obtain ⟨flag2, gm2, cap2⟩ := trip
            show (if stx.is_ending then SimResult.accept (buildCaptures input gm2)
                  else computeAux A input fuel
                    (expand input fr.i fr.mem flag2 stx.matchers ++ rest) gm2 cap2) ≠
                SimResult.fuelOut
            by_cases hend : stx.is_ending = true
            · rw [if_pos hend]
              intro h
              cases h
            · rw [if_neg hend]
              have hfrOK : FrOK input.length A.states.length fr :=
                hOK fr (List.mem_cons_self _ _)
              have htv : ∀ mt ∈ stx.matchers, mt.2 < A.states.length :=
                fun mt hmt => hT stx hstxmem mt hmt
              refine ih _ gm2 cap2 ?_ ?_
              · intro f hfm
                rcases List.mem_append.mp hfm with hfe | hfr2
                · exact (expand_child_mu input.length A.states.length input rfl fr flag2
                    stx.matchers hfrOK htv f hfe).2
                · exact hOK f (List.mem_cons_of_mem _ hfr2)
              · rw [stackW_append]
                rw [stackW_cons] at hW
                have hch : stackW (totalTrans A + 2) input.length A.states.length
                    (expand input fr.i fr.mem flag2 stx.matchers) <
                    (totalTrans A + 2) ^ frameMu input.length A.states.length fr := by
                  refine stackW_children_lt _ _ _ (by omega) fr _ ?_ ?_
                  · have h1 := expand_length_le input fr.i fr.mem flag2 stx.matchers
                    have h2 := matchers_le_totalTrans A stx hstxmem
                    omega
                  · intro c hc
                    exact (expand_child_mu input.length A.states.length input rfl fr flag2
                      stx.matchers hfrOK htv c hc).1
                omega

theorem compute_no_fuelOut_of_tv (A : NFAutomata) (hT : TargetsValid A) (s : String) :
    A.compute s ≠ SimResult.fuelOut := by
  unfold NFAutomata.compute
  apply computeAux_ne_fuelOut A s.data hT
  · intro f hf
    have hfe : f = { i := 0, state := A.initial, mem := [], flag := 0 } :=
      List.mem_singleton.mp hf
    rw [hfe]
    exact ⟨Nat.zero_le _, List.nodup_nil, fun x hx => absurd hx (List.not_mem_nil x)⟩
  · have hW : stackW (totalTrans A + 2) s.data.length A.states.length
        [{ i := 0, state := A.initial, mem := [], flag := 0 }] =
        (totalTrans A + 2) ^
          (s.data.length * (A.states.length + 1) + A.states.length) := by
      simp [stackW, frameMu]
    rw [hW]
    unfold fuelB
    refine Nat.pow_lt_pow_right (by omega) ?_
    have hexp : (s.data.length + 1) * (A.states.length + 1) =
        s.data.length * (A.states.length + 1) + (A.states.length + 1) := by
      ring
    rw [hexp]
    omega

/-- Claim C8: for every automaton whose transition targets are valid indices
and for every input string, the simulator's search drains in finitely many
steps even when the graph contains ε-cycles — in the fuel-based embedding,
`compute` run with the explicit budget `fuelB` never exhausts it (the
ε-visited list blocks re-pushing an ε-target already seen at this position
and is reset only by character-consuming transitions). -/
theorem compute_terminates (A : NFAutomata) (hT : TargetsValid A) (s : String) :
    A.compute s ≠ SimResult.fuelOut :=
  compute_no_fuelOut_of_tv A hT s

theorem compute_terminates_witness :
    TargetsValid (buildClass [('1', '9')]) ∧
    (buildClass [('1', '9')]).compute "5" ≠ SimResult.fuelOut :=
  ⟨by unfold TargetsValid; decide,
   compute_terminates (buildClass [('1', '9')]) (by unfold TargetsValid; decide) "5"⟩

/-- Claim C6 (amended): for every successfully compiled engine whose automaton
is non-empty and whose marked capture-group indices all lie below 64 (the
width of the `u64` `group_flag`; beyond it the simulator's shift overflow
panics before any result is returned), and every input the automaton does
not accept, the simulator's `compute` itself returns `None` (reject) without
error — but `Engine::exec`, the execute operation of engine.rs, unwraps that
result and panics instead of returning `None` (counterexample
`exec_panics_on_mismatch_counterexample`). -/
theorem compute_reject_exec_panics (h : Hir) (A : NFAutomata)
    (hA : compileHir h = some A) (hne : A.states ≠ []) (hG : GroupsSmall A) (s : String)
    (hnacc : ∀ m, A.compute s ≠ SimResult.accept m) :
    A.compute s = SimResult.reject ∧ execRes A s = ExecResult.panic := by
  have hinv : BuildInv A := by
    unfold compileHir at hA
    cases ha : astToNfa h with
    | none => rw [ha] at hA; cases hA
    | some A0 =>
      rw [ha] at hA
      simp only [Option.map_some'] at hA
      injection hA with hh
      subst hh
      exact inv_mark_capture_group A0 0 none (build_inv h A0 ha)
  have hT : TargetsValid A := hinv.2.1
  have hI : A.initial < A.states.length := hinv.2.2 hne
  have hnp : A.compute s ≠ SimResult.panic := compute_no_panic_of_wf A hI hT hG s
  have hnf : A.compute s ≠ SimResult.fuelOut := compute_no_fuelOut_of_tv A hT s
  cases hres : A.compute s with
  | accept m => exact absurd hres (hnacc m)
  | reject =>
    refine ⟨rfl, ?_⟩
    unfold execRes
    rw [hres]
  | panic => exact absurd hres hnp
  | fuelOut => exact absurd hres hnf

theorem compute_reject_exec_panics_witness :
    compileHir hirLit1 = some ((buildLiteral ['1']).mark_capture_group 0 none) ∧
    ((buildLiteral ['1']).mark_capture_group 0 none).states ≠ [] ∧
    GroupsSmall ((buildLiteral ['1']).mark_capture_group 0 none) ∧
    (((buildLiteral ['1']).mark_capture_group 0 none).compute "2" = SimResult.reject ∧
     execRes ((buildLiteral ['1']).mark_capture_group 0 none) "2" = ExecResult.panic) := by
  refine ⟨rfl, by decide, by unfold GroupsSmall; decide, ?_⟩
  refine compute_reject_exec_panics hirLit1 _ rfl (by decide)
    (by unfold GroupsSmall; decide) "2" ?_
  intro m hm
  have hr : ((buildLiteral ['1']).mark_capture_group 0 none).compute "2" =
      SimResult.reject := by decide
  rw [hr] at hm
  cases hm
